import Mathlib

/-!
Verification of the `slotmap` crate (Jturnerusa/slotmap).

The crate implements a generational arena twice:
* a direct layout (`src/standard.rs`), one array of tagged slots;
* an indirect / dense layout (`src/lib.rs`, duplicated in
  `src/indirection.rs`), a slot array of indirect indices plus a packed
  item array maintained by swap-removal.

Machine integers (`usize`, the `u64` inside `Generation`) are modelled as
`Nat`; generation overflow is explicitly out of scope for the crate.
Rust `Vec` is modelled as `List` with `push`/`pop` acting on the head of
the `free` list (the Lean list head is the Rust vector's tail, i.e. the
stack top).  Operations that can panic (`unreachable!()`, out-of-bounds
indexing, `Option::unwrap`) return `Option`, with `none` marking a panic.
-/

namespace Slotmap

/-- A handle into a slot map: slot position plus generation
(`Key` in `src/lib.rs`, lines 50-53). -/
structure Key where
  index : Nat
  generation : Nat
deriving DecidableEq, Repr

namespace Standard

/-- A storage slot of the direct layout (`Slot<T>` in `src/standard.rs`,
lines 18-22). -/
inductive Slot (α : Type) where
  | occupied (generation : Nat) (value : α)
  | vacant (generation : Nat)
deriving DecidableEq, Repr

/-- The direct-layout slot map (`SlotMap<T>` in `src/standard.rs`,
lines 26-30). -/
structure SlotMap (α : Type) where
  slots : List (Slot α)
  free : List Nat
deriving DecidableEq, Repr

/-- `SlotMap::new` (`src/standard.rs`, lines 33-39). -/
def SlotMap.empty {α : Type} : SlotMap α := ⟨[], []⟩

/-- `SlotMap::insert` (`src/standard.rs`, lines 58-75).  The result is
`none` when the `unreachable!()` branch panics (popped free index whose
slot is occupied) or when the popped index is out of bounds. -/
def insert {α : Type} (s : SlotMap α) (v : α) : Option (Key × SlotMap α) :=
  match s.free with
  | index :: rest =>
    match s.slots[index]? with
    | some (.vacant generation) =>
      some (⟨index, generation⟩,
            ⟨s.slots.set index (.occupied generation v), rest⟩)
    | some (.occupied _ _) => none
    | none => none
  | [] =>
    some (⟨s.slots.length, 0⟩,
          ⟨s.slots ++ [.occupied 0 v], s.free⟩)

/-- `SlotMap::get` (`src/standard.rs`, lines 130-135).  Uses the safe
`Vec::get`, so it never panics. -/
def get {α : Type} (s : SlotMap α) (k : Key) : Option α :=
  match s.slots[k.index]? with
  | some (.occupied generation v) =>
    if generation = k.generation then some v else none
  | _ => none

/-- `SlotMap::remove` (`src/standard.rs`, lines 95-108).  The result is
`none` when the inner `unreachable!()` panics (the guard saw an occupied
slot but the replaced slot was vacant, which cannot actually happen). -/
def remove {α : Type} (s : SlotMap α) (k : Key) :
    Option (Option α × SlotMap α) :=
  if (get s k).isSome then
    match s.slots[k.index]? with
    | some (.occupied _ v) =>
      some (some v,
            ⟨s.slots.set k.index (.vacant (k.generation + 1)),
             k.index :: s.free⟩)
    | _ => none
  else
    some (none, s)

/-- `SlotMap::len` (`src/standard.rs`, lines 246-248). -/
def len {α : Type} (s : SlotMap α) : Nat :=
  s.slots.length - s.free.length

/-- `SlotMap::is_empty` (`src/standard.rs`, lines 260-262). -/
def isEmpty {α : Type} (s : SlotMap α) : Bool :=
  len s == 0

/-- The element yielded by the iterator at one enumerated slot
(the closure inside `SlotMap::iter`, `src/standard.rs`, lines 188-197). -/
def iterStep {α : Type} (e : Nat × Slot α) : Option (Key × α) :=
  match e with
  | (index, .occupied generation v) => some (⟨index, generation⟩, v)
  | (_, .vacant _) => none

/-- Forward iteration (`SlotMap::iter`, `src/standard.rs`, lines 186-199):
enumerate the slots and filter-map occupied ones. -/
def iterList {α : Type} (s : SlotMap α) : List (Key × α) :=
  s.slots.enum.filterMap iterStep

/-- Backward iteration (`DoubleEndedIterator for Iter`,
`src/standard.rs`, lines 338-342): the same enumerated scan consumed from
the back. -/
def iterBackList {α : Type} (s : SlotMap α) : List (Key × α) :=
  s.slots.enum.reverse.filterMap iterStep

/-- The indexing operator (`Index for SlotMap`, `src/standard.rs`,
lines 265-271): `get(key).unwrap()`; `none` marks the unwrap panic. -/
def indexP {α : Type} (s : SlotMap α) (k : Key) : Option α :=
  match get s k with
  | some v => some v
  | none => none

/-- One successful operation of the direct layout (a non-panicking call
to `insert` or `remove`). -/
inductive Step {α : Type} : SlotMap α → SlotMap α → Prop where
  | insert {s : SlotMap α} (v : α) (k : Key) {s' : SlotMap α} :
      Standard.insert s v = some (k, s') → Step s s'
  | remove {s : SlotMap α} (k : Key) (r : Option α) {s' : SlotMap α} :
      Standard.remove s k = some (r, s') → Step s s'

/-- States of the direct layout reachable from the empty map by
successful operations. -/
def Reach {α : Type} (s : SlotMap α) : Prop :=
  Relation.ReflTransGen Step SlotMap.empty s

/-- Free-list invariant of the direct layout: the free list holds no
duplicates and lists exactly the vacant slot positions. -/
structure Inv {α : Type} (s : SlotMap α) : Prop where
  nodup : s.free.Nodup
  mem_iff : ∀ i, i ∈ s.free ↔ ∃ g, s.slots[i]? = some (.vacant g)

/-- The generation currently stored at a slot position (of either tag);
`0` for positions that do not exist. -/
def slotGen {α : Type} (s : SlotMap α) (p : Nat) : Nat :=
  match s.slots[p]? with
  | some (.occupied g _) => g
  | some (.vacant g) => g
  | none => 0

/-- Whether a slot is occupied. -/
def isOcc {α : Type} : Slot α → Bool
  | .occupied _ _ => true
  | .vacant _ => false

/-- Observer: the position of one enumerated slot when it is vacant. -/
def vacStep {α : Type} (e : Nat × Slot α) : Option Nat :=
  match e with
  | (index, .vacant _) => some index
  | (_, .occupied _ _) => none

/-- Observer: the vacant slot positions in enumeration order. -/
def vacList {α : Type} (s : SlotMap α) : List Nat :=
  s.slots.enum.filterMap vacStep

/-- Observer: the keys for which `get` currently succeeds, one per
occupied slot. -/
def validKeys {α : Type} (s : SlotMap α) : List Key :=
  (iterList s).map Prod.fst

/-- Direct-layout state after `insert 10` from the empty map. -/
def exT1 : SlotMap Nat := ⟨[.occupied 0 10], []⟩

/-- Direct-layout state after `insert 10; insert 20`. -/
def exT2 : SlotMap Nat := ⟨[.occupied 0 10, .occupied 0 20], []⟩

/-- Direct-layout state after `insert 10; insert 20; remove ⟨0,0⟩`. -/
def exT3 : SlotMap Nat := ⟨[.vacant 1, .occupied 0 20], [0]⟩

/-- Direct-layout state after `insert 10; remove ⟨0,0⟩`. -/
def exU1 : SlotMap Nat := ⟨[.vacant 1], [0]⟩

end Standard

namespace Indirection

/-- A dense item of the indirect layout (`Item<T>` in `src/lib.rs`,
lines 59-62): the value together with its owning key. -/
structure Item (α : Type) where
  value : α
  key : Key
deriving DecidableEq, Repr

/-- A storage slot of the indirect layout (`Slot` in `src/lib.rs`,
lines 64-68): occupied slots store an indirect index into the dense
item array. -/
inductive Slot where
  | occupied (idx : Nat)
  | vacant (generation : Nat)
deriving DecidableEq, Repr

/-- The indirect-layout slot map (`SlotMap<T>` in `src/lib.rs`,
lines 83-88). -/
structure SlotMap (α : Type) where
  items : List (Item α)
  slots : List Slot
  free : List Nat
deriving DecidableEq, Repr

/-- `SlotMap::new` (`src/lib.rs`, lines 106-113). -/
def SlotMap.empty {α : Type} : SlotMap α := ⟨[], [], []⟩

/-- `SlotMap::insert` (`src/lib.rs`, lines 129-149).  `none` marks the
`unreachable!()` panic (popped free index whose slot is occupied) or an
out-of-bounds popped index. -/
def insert {α : Type} (s : SlotMap α) (v : α) : Option (Key × SlotMap α) :=
  match s.free with
  | index :: rest =>
    match s.slots[index]? with
    | some (.vacant generation) =>
      some (⟨index, generation⟩,
            ⟨s.items ++ [⟨v, ⟨index, generation⟩⟩],
             s.slots.set index (.occupied s.items.length),
             rest⟩)
    | some (.occupied _) => none
    | none => none
  | [] =>
    some (⟨s.slots.length, 0⟩,
          ⟨s.items ++ [⟨v, ⟨s.slots.length, 0⟩⟩],
           s.slots ++ [.occupied s.items.length],
           s.free⟩)

/-- `SlotMap::get` (`src/lib.rs`, lines 202-211).  The outer `Option` is
the panic layer: the guard dereferences `self.items[indirect_index]`,
which panics when the indirect index is out of bounds; the inner
`Option` is the value actually returned. -/
def getP {α : Type} (s : SlotMap α) (k : Key) : Option (Option α) :=
  match s.slots[k.index]? with
  | some (.occupied ii) =>
    match s.items[ii]? with
    | some item =>
      some (if item.key.generation = k.generation then some item.value
            else none)
    | none => none
  | _ => some none

/-- `SlotMap::remove` (`src/lib.rs`, lines 167-182).  Note the source
pushes `indirect_index` — the dense-array index, not `key.index` — onto
the free list.  `none` marks a panic (inside `get`, in
`unwrap_occupied`, in `last().unwrap()`, or in `swap_remove`). -/
def remove {α : Type} (s : SlotMap α) (k : Key) :
    Option (Option α × SlotMap α) :=
  match getP s k with
  | none => none
  | some r =>
    if r.isSome then
      match s.slots[k.index]? with
      | some (.occupied ii) =>
        let slots1 := s.slots.set k.index (.vacant (k.generation + 1))
        let free1 := ii :: s.free
        if ii = s.items.length - 1 then
          some ((s.items.getLast?).map Item.value,
                ⟨s.items.dropLast, slots1, free1⟩)
        else
          match s.items.getLast? with
          | none => none
          | some last =>
            match s.items[ii]? with
            | none => none
            | some removed =>
              some (some removed.value,
                    ⟨(s.items.set ii last).dropLast,
                     slots1.set last.key.index (.occupied ii),
                     free1⟩)
      | _ => none
    else
      some (none, s)

/-- `SlotMap::len` (`src/lib.rs`, lines 253-255). -/
def len {α : Type} (s : SlotMap α) : Nat :=
  s.items.length

/-- `SlotMap::is_empty` (`src/lib.rs`, lines 267-269). -/
def isEmpty {α : Type} (s : SlotMap α) : Bool :=
  s.items.length == 0

/-- The indexing operator (`Index for SlotMap`, `src/lib.rs`,
lines 444-449): `get(key).unwrap()`; `none` marks a panic, either inside
`get` itself or at the unwrap. -/
def indexP {α : Type} (s : SlotMap α) (k : Key) : Option α :=
  match getP s k with
  | none => none
  | some none => none
  | some (some v) => some v

/-- One successful operation of the indirect layout. -/
inductive Step {α : Type} : SlotMap α → SlotMap α → Prop where
  | insert {s : SlotMap α} (v : α) (k : Key) {s' : SlotMap α} :
      Indirection.insert s v = some (k, s') → Step s s'
  | remove {s : SlotMap α} (k : Key) (r : Option α) {s' : SlotMap α} :
      Indirection.remove s k = some (r, s') → Step s s'

/-- States of the indirect layout reachable from the empty map by
successful operations. -/
def Reach {α : Type} (s : SlotMap α) : Prop :=
  Relation.ReflTransGen Step SlotMap.empty s

/-- The bidirectional pointer invariant of the indirect layout: occupied
slots point at existing dense items whose owning key points back, and
every dense item's owning slot points at it. -/
structure Inv {α : Type} (s : SlotMap α) : Prop where
  slotToItem : ∀ p i, s.slots[p]? = some (.occupied i) →
      ∃ item : Item α, s.items[i]? = some item ∧ item.key.index = p
  itemToSlot : ∀ (i : Nat) (item : Item α), s.items[i]? = some item →
      s.slots[item.key.index]? = some (.occupied i)

/-- The generation currently stored at a slot position: for an occupied
slot the generation of the dense item it points at; `0` for positions
that do not exist or dangling indirect indices. -/
def slotGen {α : Type} (s : SlotMap α) (p : Nat) : Nat :=
  match s.slots[p]? with
  | some (.occupied ii) =>
    match s.items[ii]? with
    | some item => item.key.generation
    | none => 0
  | some (.vacant g) => g
  | none => 0

/-- Observer: the keys for which `get` currently succeeds, one per
dense item. -/
def validKeys {α : Type} (s : SlotMap α) : List Key :=
  s.items.map Item.key

/-- Indirect-layout state after `insert 10` from the empty map. -/
def exS1 : SlotMap Nat := ⟨[⟨10, ⟨0, 0⟩⟩], [.occupied 0], []⟩

/-- Indirect-layout state after `insert 10; insert 20`. -/
def exS2 : SlotMap Nat :=
  ⟨[⟨10, ⟨0, 0⟩⟩, ⟨20, ⟨1, 0⟩⟩], [.occupied 0, .occupied 1], []⟩

/-- Indirect-layout state after `insert 10; insert 20; remove ⟨0,0⟩`:
the swap-removal moved item `20` to dense index 0 and the slot at
position 1 was rewritten to point at it. -/
def exS3 : SlotMap Nat := ⟨[⟨20, ⟨1, 0⟩⟩], [.vacant 1, .occupied 0], [0]⟩

/-- Indirect-layout state after `insert 10; insert 20; remove ⟨0,0⟩;
remove ⟨1,0⟩`.  The second removal pushed dense index `0` onto the free
list instead of slot position `1`, so the free list is `[0, 0]` and
position `1` is never recycled. -/
def exS4 : SlotMap Nat := ⟨[], [.vacant 1, .vacant 1], [0, 0]⟩

/-- Indirect-layout state after `insert 10; insert 20; remove ⟨0,0⟩;
remove ⟨1,0⟩; insert 30`.  The free list still holds `0`, but slot `0`
is now occupied: the next insert that pops it panics. -/
def exS5 : SlotMap Nat := ⟨[⟨30, ⟨0, 1⟩⟩], [.occupied 0, .vacant 1], [0]⟩

end Indirection

/-! ## Direct layout: basic lemmas -/

theorem std_get_eq_some_iff {α : Type} {s : Standard.SlotMap α} {k : Key}
    {v : α} :
    Standard.get s k = some v ↔
      s.slots[k.index]? = some (.occupied k.generation v) := by
  cases hs : s.slots[k.index]? with
  | none => simp [Standard.get, hs]
  | some slot =>
    cases slot with
    | vacant g => simp [Standard.get, hs]
    | occupied g w =>
      by_cases hg : g = k.generation
      · subst hg
        simp [Standard.get, hs]
      · simp [Standard.get, hs, hg]

theorem std_get_isSome_iff {α : Type} {s : Standard.SlotMap α} {k : Key} :
    (Standard.get s k).isSome = true ↔
      ∃ v, s.slots[k.index]? = some (.occupied k.generation v) := by
  constructor
  · intro h
    obtain ⟨v, hv⟩ := Option.isSome_iff_exists.mp h
    exact ⟨v, std_get_eq_some_iff.mp hv⟩
  · intro ⟨v, hv⟩
    rw [std_get_eq_some_iff.mpr hv]
    rfl

theorem std_get_none_of_vacant {α : Type} {s : Standard.SlotMap α} {k : Key}
    {g : Nat} (h : s.slots[k.index]? = some (.vacant g)) :
    Standard.get s k = none := by
  simp [Standard.get, h]

theorem std_remove_of_get_none {α : Type} {s : Standard.SlotMap α} {k : Key}
    (h : Standard.get s k = none) :
    Standard.remove s k = some (none, s) := by
  simp [Standard.remove, h]

theorem std_remove_of_get_some {α : Type} {s : Standard.SlotMap α} {k : Key}
    {v : α} (h : Standard.get s k = some v) :
    Standard.remove s k = some (some v,
      ⟨s.slots.set k.index (.vacant (k.generation + 1)),
       k.index :: s.free⟩) := by
  have hs := std_get_eq_some_iff.mp h
  simp [Standard.remove, h, hs]

theorem std_remove_ne_none {α : Type} (s : Standard.SlotMap α) (k : Key) :
    Standard.remove s k ≠ none := by
  cases h : Standard.get s k with
  | none => rw [std_remove_of_get_none h]; simp
  | some v => rw [std_remove_of_get_some h]; simp

theorem std_insert_empty_free {α : Type} {s : Standard.SlotMap α} {v : α}
    (h : s.free = []) :
    Standard.insert s v =
      some (⟨s.slots.length, 0⟩, ⟨s.slots ++ [.occupied 0 v], s.free⟩) := by
  simp [Standard.insert, h]

theorem std_insert_cons_free {α : Type} {s : Standard.SlotMap α} {v : α}
    {i : Nat} {rest : List Nat} {g : Nat}
    (h : s.free = i :: rest) (hs : s.slots[i]? = some (.vacant g)) :
    Standard.insert s v =
      some (⟨i, g⟩, ⟨s.slots.set i (.occupied g v), rest⟩) := by
  simp [Standard.insert, h, hs]

theorem std_insert_eq_some {α : Type} {s : Standard.SlotMap α} {v : α}
    {k : Key} {s' : Standard.SlotMap α}
    (h : Standard.insert s v = some (k, s')) :
    (∃ rest, s.free = k.index :: rest ∧
       s.slots[k.index]? = some (.vacant k.generation) ∧
       s' = ⟨s.slots.set k.index (.occupied k.generation v), rest⟩) ∨
    (s.free = [] ∧ k = ⟨s.slots.length, 0⟩ ∧
       s' = ⟨s.slots ++ [.occupied 0 v], s.free⟩) := by
  unfold Standard.insert at h
  split at h
  next i rest hfree =>
    split at h
    next g hslot =>
      cases h
      exact Or.inl ⟨rest, hfree, hslot, rfl⟩
    next => exact absurd h (by simp)
    next => exact absurd h (by simp)
  next hfree =>
    cases h
    exact Or.inr ⟨hfree, rfl, rfl⟩

/-! ## Direct layout: the free-list invariant along reachable states -/

theorem std_inv_empty {α : Type} :
    Standard.Inv (Standard.SlotMap.empty : Standard.SlotMap α) := by
  constructor
  · exact List.nodup_nil
  · intro i
    simp [Standard.SlotMap.empty]

theorem std_inv_insert {α : Type} {s : Standard.SlotMap α} {v : α} {k : Key}
    {s' : Standard.SlotMap α} (hI : Standard.Inv s)
    (h : Standard.insert s v = some (k, s')) : Standard.Inv s' := by
  rcases std_insert_eq_some h with
    ⟨rest, hfree, hslot, rfl⟩ | ⟨hfree, hk, rfl⟩
  · have hnd := hI.nodup
    rw [hfree] at hnd
    have hkbound : k.index < s.slots.length :=
      (List.getElem?_eq_some.mp hslot).1
    constructor
    · exact hnd.of_cons
    · intro i
      by_cases hik : i = k.index
      · subst hik
        have hni : k.index ∉ rest := (List.nodup_cons.mp hnd).1
        constructor
        · intro hmem
          exact absurd hmem hni
        · intro ⟨g, hg⟩
          rw [List.getElem?_set_self hkbound] at hg
          simp at hg
      · have hmem := hI.mem_iff i
        rw [hfree] at hmem
        simp only [List.mem_cons, hik, false_or] at hmem
        show i ∈ rest ↔ _
        rw [hmem, List.getElem?_set_ne (Ne.symm hik)]
  · constructor
    · exact hI.nodup
    · intro i
      have hnov : ¬ ∃ g, s.slots[i]? = some (Standard.Slot.vacant g) := by
        intro hex
        have hmem := (hI.mem_iff i).mpr hex
        rw [hfree] at hmem
        exact List.not_mem_nil i hmem
      show i ∈ s.free ↔ _
      rw [hfree]
      simp only [List.not_mem_nil, false_iff]
      intro ⟨g, hg⟩
      rw [List.getElem?_append] at hg
      by_cases hlt : i < s.slots.length
      · rw [if_pos hlt] at hg
        exact hnov ⟨g, hg⟩
      · rw [if_neg hlt] at hg
        cases hd : i - s.slots.length with
        | zero => rw [hd] at hg; simp at hg
        | succ m => rw [hd] at hg; simp at hg

theorem std_remove_eq_some {α : Type} {s : Standard.SlotMap α} {k : Key}
    {r : Option α} {s' : Standard.SlotMap α}
    (h : Standard.remove s k = some (r, s')) :
    (Standard.get s k = none ∧ r = none ∧ s' = s) ∨
    (∃ v, Standard.get s k = some v ∧ r = some v ∧
       s' = ⟨s.slots.set k.index (.vacant (k.generation + 1)),
             k.index :: s.free⟩) := by
  cases hg : Standard.get s k with
  | none =>
    rw [std_remove_of_get_none hg] at h
    simp only [Option.some.injEq, Prod.mk.injEq] at h
    exact Or.inl ⟨rfl, h.1.symm, h.2.symm⟩
  | some v =>
    rw [std_remove_of_get_some hg] at h
    simp only [Option.some.injEq, Prod.mk.injEq] at h
    exact Or.inr ⟨v, rfl, h.1.symm, h.2.symm⟩

theorem std_inv_remove {α : Type} {s : Standard.SlotMap α} {k : Key}
    {r : Option α} {s' : Standard.SlotMap α} (hI : Standard.Inv s)
    (h : Standard.remove s k = some (r, s')) : Standard.Inv s' := by
  rcases std_remove_eq_some h with ⟨_, _, rfl⟩ | ⟨v, hg, _, rfl⟩
  · exact hI
  · have hs := std_get_eq_some_iff.mp hg
    have hkbound : k.index < s.slots.length :=
      (List.getElem?_eq_some.mp hs).1
    have hkfree : k.index ∉ s.free := by
      intro hmem
      obtain ⟨g, hg'⟩ := (hI.mem_iff k.index).mp hmem
      rw [hs] at hg'
      simp at hg'
    constructor
    · exact List.nodup_cons.mpr ⟨hkfree, hI.nodup⟩
    · intro i
      by_cases hik : i = k.index
      · subst hik
        constructor
        · intro _
          exact ⟨k.generation + 1, List.getElem?_set_self hkbound⟩
        · intro _
          exact List.mem_cons_self _ _
      · show i ∈ _ :: _ ↔ _
        simp only [List.mem_cons, hik, false_or]
        rw [List.getElem?_set_ne (Ne.symm hik)]
        exact hI.mem_iff i

theorem std_reach_inv {α : Type} {s : Standard.SlotMap α}
    (h : Standard.Reach s) : Standard.Inv s := by
  induction h with
  | refl => exact std_inv_empty
  | tail hsteps hstep ih =>
    cases hstep with
    | insert v k hs => exact std_inv_insert ih hs
    | remove k r hs => exact std_inv_remove ih hs

theorem std_insert_isSome {α : Type} {s : Standard.SlotMap α}
    (hI : Standard.Inv s) (v : α) :
    ∃ k s', Standard.insert s v = some (k, s') := by
  cases hfree : s.free with
  | nil => exact ⟨_, _, std_insert_empty_free hfree⟩
  | cons i rest =>
    have hmem : i ∈ s.free := by
      rw [hfree]
      exact List.mem_cons_self _ _
    obtain ⟨g, hg⟩ := (hI.mem_iff i).mp hmem
    exact ⟨_, _, std_insert_cons_free hfree hg⟩

/-! ## Direct layout: slot generations are monotone along operations -/

theorem std_slotGen_occupied {α : Type} {s : Standard.SlotMap α} {p g : Nat}
    {v : α} (h : s.slots[p]? = some (.occupied g v)) :
    Standard.slotGen s p = g := by
  simp [Standard.slotGen, h]

theorem std_slotGen_vacant {α : Type} {s : Standard.SlotMap α} {p g : Nat}
    (h : s.slots[p]? = some (.vacant g)) :
    Standard.slotGen s p = g := by
  simp [Standard.slotGen, h]

theorem std_step_slots_length {α : Type} {s s' : Standard.SlotMap α}
    (h : Standard.Step s s') : s.slots.length ≤ s'.slots.length := by
  cases h with
  | insert v k hs =>
    rcases std_insert_eq_some hs with ⟨rest, _, _, rfl⟩ | ⟨_, _, rfl⟩
    · simp
    · simp
  | remove k r hs =>
    rcases std_remove_eq_some hs with ⟨_, _, rfl⟩ | ⟨v, _, _, rfl⟩
    · exact le_refl _
    · simp

theorem std_step_slotGen {α : Type} {s s' : Standard.SlotMap α}
    (h : Standard.Step s s') (p : Nat) :
    Standard.slotGen s p ≤ Standard.slotGen s' p := by
  cases h with
  | insert v k hs =>
    rcases std_insert_eq_some hs with ⟨rest, _, hslot, rfl⟩ | ⟨_, _, rfl⟩
    · by_cases hp : p = k.index
      · subst hp
        have hb : k.index < s.slots.length :=
          (List.getElem?_eq_some.mp hslot).1
        rw [std_slotGen_vacant hslot,
            std_slotGen_occupied (s := ⟨_, _⟩) (List.getElem?_set_self hb)]
      · have heq : (s.slots.set k.index
            (Standard.Slot.occupied k.generation v))[p]? = s.slots[p]? :=
          List.getElem?_set_ne (fun hh => hp hh.symm)
        simp only [Standard.slotGen, heq]
        exact le_refl _
    · by_cases hp : p < s.slots.length
      · have heq : (s.slots ++ [Standard.Slot.occupied 0 v])[p]? =
            s.slots[p]? := by
          rw [List.getElem?_append, if_pos hp]
        simp only [Standard.slotGen, heq]
        exact le_refl _
      · have hnone : s.slots[p]? = none := by
          rw [List.getElem?_eq_none_iff]
          omega
        have hl : Standard.slotGen s p = 0 := by
          simp [Standard.slotGen, hnone]
        rw [hl]
        exact Nat.zero_le _
  | remove k r hs =>
    rcases std_remove_eq_some hs with ⟨_, _, rfl⟩ | ⟨v, hg, _, rfl⟩
    · exact le_refl _
    · have hslot := std_get_eq_some_iff.mp hg
      have hb : k.index < s.slots.length := (List.getElem?_eq_some.mp hslot).1
      by_cases hp : p = k.index
      · subst hp
        rw [std_slotGen_occupied hslot,
            std_slotGen_vacant (s := ⟨_, _⟩) (List.getElem?_set_self hb)]
        omega
      · have heq : (s.slots.set k.index
            (Standard.Slot.vacant (k.generation + 1)))[p]? = s.slots[p]? :=
          List.getElem?_set_ne (fun hh => hp hh.symm)
        simp only [Standard.slotGen, heq]
        exact le_refl _

theorem std_reachFrom_mono {α : Type} {s s' : Standard.SlotMap α}
    (h : Relation.ReflTransGen Standard.Step s s') :
    (∀ p, Standard.slotGen s p ≤ Standard.slotGen s' p) ∧
      s.slots.length ≤ s'.slots.length := by
  induction h with
  | refl => exact ⟨fun p => le_refl _, le_refl _⟩
  | tail hsteps hstep ih =>
    exact ⟨fun p => le_trans (ih.1 p) (std_step_slotGen hstep p),
           le_trans ih.2 (std_step_slots_length hstep)⟩

theorem std_get_isSome_slotGen {α : Type} {s : Standard.SlotMap α} {k : Key}
    (h : (Standard.get s k).isSome = true) :
    Standard.slotGen s k.index = k.generation := by
  obtain ⟨v, hv⟩ := std_get_isSome_iff.mp h
  exact std_slotGen_occupied hv

theorem std_get_isSome_index_lt {α : Type} {s : Standard.SlotMap α}
    {k : Key} (h : (Standard.get s k).isSome = true) :
    k.index < s.slots.length := by
  obtain ⟨v, hv⟩ := std_get_isSome_iff.mp h
  exact (List.getElem?_eq_some.mp hv).1

theorem std_remove_valid_slotGen {α : Type} {s : Standard.SlotMap α}
    {k : Key} {v : α} {s' : Standard.SlotMap α}
    (h : Standard.remove s k = some (some v, s')) :
    Standard.slotGen s' k.index = k.generation + 1 := by
  rcases std_remove_eq_some h with ⟨_, hr, _⟩ | ⟨w, hg, _, rfl⟩
  · exact absurd hr.symm (by simp)
  · have hb : k.index < s.slots.length :=
      (List.getElem?_eq_some.mp (std_get_eq_some_iff.mp hg)).1
    exact std_slotGen_vacant (s := ⟨_, _⟩) (List.getElem?_set_self hb)

theorem std_insert_key_gen {α : Type} {s : Standard.SlotMap α} {v : α}
    {k : Key} {s' : Standard.SlotMap α}
    (h : Standard.insert s v = some (k, s')) :
    k.generation = Standard.slotGen s k.index := by
  rcases std_insert_eq_some h with ⟨rest, _, hslot, _⟩ | ⟨_, rfl, _⟩
  · exact (std_slotGen_vacant hslot).symm
  · have hnone : s.slots[(s.slots.length : Nat)]? = none := by
      rw [List.getElem?_eq_none_iff]
    simp [Standard.slotGen, hnone]

/-! ## Direct layout: iteration -/

theorem std_iterStep_index {α : Type} {e : Nat × Standard.Slot α}
    {b : Key × α} (h : Standard.iterStep e = some b) : b.1.index = e.1 := by
  obtain ⟨i, slot⟩ := e
  cases slot with
  | occupied g w =>
    simp [Standard.iterStep] at h
    rw [← h]
  | vacant g => simp [Standard.iterStep] at h

theorem std_enum_eq {α : Type} (l : List α) : l.enum = List.enumFrom 0 l :=
  rfl

theorem std_pairwise_enumFrom {β : Type} (l : List β) (n : Nat) :
    List.Pairwise (fun a b => a.1 < b.1) (List.enumFrom n l) := by
  induction l generalizing n with
  | nil => exact List.Pairwise.nil
  | cons x xs ih =>
    rw [List.enumFrom_cons]
    refine List.Pairwise.cons ?_ (ih (n + 1))
    intro b hb
    have := (List.mem_enumFrom hb).1
    omega

theorem std_iterList_pairwise {α : Type} (s : Standard.SlotMap α) :
    (Standard.iterList s).Pairwise (fun a b => a.1.index < b.1.index) := by
  unfold Standard.iterList
  rw [std_enum_eq]
  refine List.Pairwise.filterMap Standard.iterStep ?_
    (std_pairwise_enumFrom s.slots 0)
  intro a a' hlt b hb b' hb'
  rw [std_iterStep_index hb, std_iterStep_index hb']
  exact hlt

theorem std_iterList_mem {α : Type} {s : Standard.SlotMap α} {k : Key}
    {v : α} :
    (k, v) ∈ Standard.iterList s ↔
      s.slots[k.index]? = some (.occupied k.generation v) := by
  unfold Standard.iterList
  rw [std_enum_eq, List.mem_filterMap]
  constructor
  · intro ⟨a, ha, hf⟩
    obtain ⟨i, slot⟩ := a
    cases slot with
    | vacant g => simp [Standard.iterStep] at hf
    | occupied g w =>
      simp only [Standard.iterStep, Option.some.injEq, Prod.mk.injEq] at hf
      obtain ⟨m, hm⟩ := List.mem_iff_getElem?.mp ha
      rw [List.getElem?_enumFrom] at hm
      cases hsl : s.slots[m]? with
      | none => rw [hsl] at hm; simp at hm
      | some slot' =>
        rw [hsl] at hm
        simp only [Option.map_some', Option.some.injEq, Prod.mk.injEq] at hm
        obtain ⟨him, hsl'⟩ := hm
        obtain ⟨hk, hv⟩ := hf
        rw [← hk, ← hv]
        show s.slots[i]? = some (Standard.Slot.occupied g w)
        have him : i = m := by omega
        rw [him, hsl, hsl']
  · intro hslot
    refine ⟨(k.index, .occupied k.generation v), ?_, rfl⟩
    rw [List.mem_iff_getElem?]
    refine ⟨k.index, ?_⟩
    rw [List.getElem?_enumFrom, hslot]
    simp

theorem std_iterBack_eq_reverse {α : Type} (s : Standard.SlotMap α) :
    Standard.iterBackList s = (Standard.iterList s).reverse := by
  unfold Standard.iterBackList Standard.iterList
  rw [List.filterMap_reverse]

/-! ## Direct layout: counting occupied and vacant slots -/

theorem std_lengths_aux {α : Type} (l : List (Standard.Slot α)) (n : Nat) :
    ((List.enumFrom n l).filterMap Standard.iterStep).length +
      ((List.enumFrom n l).filterMap Standard.vacStep).length = l.length := by
  induction l generalizing n with
  | nil => rfl
  | cons x xs ih =>
    rw [List.enumFrom_cons]
    cases x with
    | occupied g w =>
      have h1 : Standard.iterStep (n, Standard.Slot.occupied g w) =
          some (⟨n, g⟩, w) := rfl
      have h2 : Standard.vacStep (n, Standard.Slot.occupied g w) =
          (none : Option Nat) := rfl
      rw [List.filterMap_cons_some h1, List.filterMap_cons_none h2]
      simp only [List.length_cons]
      have := ih (n + 1)
      omega
    | vacant g =>
      have h1 : Standard.iterStep (n, Standard.Slot.vacant g) =
          (none : Option (Key × α)) := rfl
      have h2 : Standard.vacStep (α := α) (n, Standard.Slot.vacant g) =
          some n := rfl
      rw [List.filterMap_cons_none h1, List.filterMap_cons_some h2]
      simp only [List.length_cons]
      have := ih (n + 1)
      omega

theorem std_vacList_mem {α : Type} {s : Standard.SlotMap α} {i : Nat} :
    i ∈ Standard.vacList s ↔ ∃ g, s.slots[i]? = some (.vacant g) := by
  unfold Standard.vacList
  rw [std_enum_eq, List.mem_filterMap]
  constructor
  · intro ⟨a, ha, hf⟩
    obtain ⟨j, slot⟩ := a
    cases slot with
    | occupied g w => simp [Standard.vacStep] at hf
    | vacant g =>
      simp only [Standard.vacStep, Option.some.injEq] at hf
      obtain ⟨m, hm⟩ := List.mem_iff_getElem?.mp ha
      rw [List.getElem?_enumFrom] at hm
      cases hsl : s.slots[m]? with
      | none => rw [hsl] at hm; simp at hm
      | some slot' =>
        rw [hsl] at hm
        simp only [Option.map_some', Option.some.injEq, Prod.mk.injEq] at hm
        refine ⟨g, ?_⟩
        rw [← hf]
        show s.slots[j]? = _
        have hjm : j = m := by omega
        rw [hjm, hsl, hm.2]
  · intro ⟨g, hg⟩
    refine ⟨(i, .vacant g), ?_, rfl⟩
    rw [List.mem_iff_getElem?]
    refine ⟨i, ?_⟩
    rw [List.getElem?_enumFrom, hg]
    simp

theorem std_vacList_nodup {α : Type} (s : Standard.SlotMap α) :
    (Standard.vacList s).Nodup := by
  have hpw : (Standard.vacList s).Pairwise (· < ·) := by
    unfold Standard.vacList
    rw [std_enum_eq]
    refine List.Pairwise.filterMap Standard.vacStep ?_
      (std_pairwise_enumFrom s.slots 0)
    intro a a' hlt b hb b' hb'
    obtain ⟨j, slot⟩ := a
    obtain ⟨j', slot'⟩ := a'
    cases slot <;> simp [Standard.vacStep] at hb
    cases slot' <;> simp [Standard.vacStep] at hb'
    rw [← hb, ← hb']
    exact hlt
  exact hpw.imp Nat.ne_of_lt

theorem std_free_length_eq_vacList {α : Type} {s : Standard.SlotMap α}
    (hI : Standard.Inv s) : s.free.length = (Standard.vacList s).length := by
  have hperm : s.free.Perm (Standard.vacList s) := by
    refine List.perm_of_nodup_nodup_toFinset_eq hI.nodup
      (std_vacList_nodup s) ?_
    ext j
    rw [List.mem_toFinset, List.mem_toFinset, hI.mem_iff, std_vacList_mem]
  exact hperm.length_eq

theorem std_len_eq_iterList_length {α : Type} {s : Standard.SlotMap α}
    (hI : Standard.Inv s) :
    Standard.len s = (Standard.iterList s).length := by
  have haux := std_lengths_aux s.slots 0
  have hfree := std_free_length_eq_vacList hI
  have hfle : s.free.length ≤ s.slots.length := by
    unfold Standard.vacList at hfree
    rw [std_enum_eq] at hfree
    omega
  unfold Standard.len Standard.iterList Standard.vacList at *
  rw [std_enum_eq] at *
  omega

/-! ## Direct layout: the list of currently valid keys -/

theorem std_validKeys_mem {α : Type} {s : Standard.SlotMap α} {k : Key} :
    k ∈ Standard.validKeys s ↔ (Standard.get s k).isSome = true := by
  unfold Standard.validKeys
  rw [List.mem_map, std_get_isSome_iff]
  constructor
  · intro ⟨⟨k', v⟩, hmem, hk⟩
    cases hk
    exact ⟨v, std_iterList_mem.mp hmem⟩
  · intro ⟨v, hv⟩
    exact ⟨(k, v), std_iterList_mem.mpr hv, rfl⟩

theorem std_validKeys_nodup {α : Type} (s : Standard.SlotMap α) :
    (Standard.validKeys s).Nodup := by
  have hpw := std_iterList_pairwise s
  have : (Standard.validKeys s).Pairwise (fun a b => a.index < b.index) := by
    unfold Standard.validKeys
    rw [List.pairwise_map]
    exact hpw
  exact this.imp (fun h => by
    intro he
    rw [he] at h
    exact Nat.lt_irrefl _ h)

theorem std_validKeys_length {α : Type} {s : Standard.SlotMap α}
    (hI : Standard.Inv s) :
    (Standard.validKeys s).length = Standard.len s := by
  unfold Standard.validKeys
  rw [List.length_map, std_len_eq_iterList_length hI]

/-! ## Direct layout: frame properties of insert -/

theorem std_get_none_of_oob {α : Type} {s : Standard.SlotMap α} {k : Key}
    (h : s.slots[k.index]? = none) : Standard.get s k = none := by
  simp [Standard.get, h]

theorem std_inv_free_le {α : Type} {s : Standard.SlotMap α}
    (hI : Standard.Inv s) : s.free.length ≤ s.slots.length := by
  have hfree := std_free_length_eq_vacList hI
  have haux := std_lengths_aux s.slots 0
  unfold Standard.vacList at hfree
  rw [std_enum_eq] at hfree
  omega

theorem std_insert_get_before {α : Type} {s : Standard.SlotMap α} {v : α}
    {k' : Key} {s' : Standard.SlotMap α}
    (h : Standard.insert s v = some (k', s')) :
    Standard.get s k' = none := by
  rcases std_insert_eq_some h with ⟨rest, _, hslot, _⟩ | ⟨_, rfl, _⟩
  · exact std_get_none_of_vacant hslot
  · refine std_get_none_of_oob ?_
    rw [List.getElem?_eq_none_iff]

theorem std_insert_len {α : Type} {s : Standard.SlotMap α} {v : α}
    {k' : Key} {s' : Standard.SlotMap α} (hI : Standard.Inv s)
    (h : Standard.insert s v = some (k', s')) :
    Standard.len s' = Standard.len s + 1 := by
  have hle := std_inv_free_le hI
  rcases std_insert_eq_some h with ⟨rest, hfree, hslot, rfl⟩ | ⟨hfree, _, rfl⟩
  · have : s.free.length = rest.length + 1 := by rw [hfree]; rfl
    unfold Standard.len
    simp only [List.length_set]
    omega
  · unfold Standard.len
    simp only [List.length_append, List.length_cons, List.length_nil]
    omega

theorem std_insert_frame {α : Type} {s : Standard.SlotMap α} {v : α}
    {k' : Key} {s' : Standard.SlotMap α}
    (h : Standard.insert s v = some (k', s')) :
    ∀ k, k ≠ k' → Standard.get s' k = Standard.get s k := by
  intro k hne
  rcases std_insert_eq_some h with ⟨rest, hfree, hslot, rfl⟩ | ⟨hfree, hk, rfl⟩
  · by_cases hik : k.index = k'.index
    · have hgen : k.generation ≠ k'.generation := by
        intro hg
        exact hne (by cases k; cases k'; simp_all)
      have hb : k'.index < s.slots.length :=
        (List.getElem?_eq_some.mp hslot).1
      have h1 : Standard.get s k = none := by
        refine std_get_none_of_vacant (g := k'.generation) ?_
        rw [hik]
        exact hslot
      have h2 : Standard.get
          (⟨s.slots.set k'.index (.occupied k'.generation v), rest⟩ :
            Standard.SlotMap α) k = none := by
        have hset : (s.slots.set k'.index
            (Standard.Slot.occupied k'.generation v))[k.index]? =
            some (.occupied k'.generation v) := by
          rw [hik]
          exact List.getElem?_set_self hb
        simp [Standard.get, hset, hgen]
        intro hg
        exact absurd hg (Ne.symm hgen)
      rw [h1, h2]
    · have hset : (s.slots.set k'.index
          (Standard.Slot.occupied k'.generation v))[k.index]? =
          s.slots[k.index]? :=
        List.getElem?_set_ne (fun hh => hik hh.symm)
      simp only [Standard.get, hset]
  · subst hk
    by_cases hik : k.index = s.slots.length
    · have hgen : k.generation ≠ 0 := by
        intro hg
        refine hne ?_
        cases k
        simp_all
      have h1 : Standard.get s k = none := by
        refine std_get_none_of_oob ?_
        rw [List.getElem?_eq_none_iff, hik]
      have hset : (s.slots ++ [Standard.Slot.occupied 0 v])[k.index]? =
          some (.occupied 0 v) := by
        rw [hik]
        exact List.getElem?_concat_length _ _
      have h2 : Standard.get
          (⟨s.slots ++ [.occupied 0 v], s.free⟩ : Standard.SlotMap α) k =
          none := by
        simp [Standard.get, hset]
        intro hg
        exact absurd hg.symm hgen
      rw [h1, h2]
    · by_cases hlt : k.index < s.slots.length
      · have hset : (s.slots ++ [Standard.Slot.occupied 0 v])[k.index]? =
            s.slots[k.index]? := by
          rw [List.getElem?_append, if_pos hlt]
        simp only [Standard.get, hset]
      · have h1 : s.slots[k.index]? = none := by
          rw [List.getElem?_eq_none_iff]
          omega
        have h2 : (s.slots ++ [Standard.Slot.occupied 0 v])[k.index]? =
            none := by
          rw [List.getElem?_eq_none_iff]
          simp only [List.length_append, List.length_cons, List.length_nil]
          omega
        rw [std_get_none_of_oob h1, std_get_none_of_oob h2]

/-! ## Indirect layout: basic lemmas about `getP` -/

theorem ind_getP_none_of_vacant {α : Type} {s : Indirection.SlotMap α}
    {k : Key} {g : Nat} (h : s.slots[k.index]? = some (.vacant g)) :
    Indirection.getP s k = some none := by
  simp [Indirection.getP, h]

theorem ind_getP_none_of_oob {α : Type} {s : Indirection.SlotMap α}
    {k : Key} (h : s.slots[k.index]? = none) :
    Indirection.getP s k = some none := by
  simp [Indirection.getP, h]

theorem ind_getP_occupied {α : Type} {s : Indirection.SlotMap α} {k : Key}
    {ii : Nat} {item : Indirection.Item α}
    (h1 : s.slots[k.index]? = some (.occupied ii))
    (h2 : s.items[ii]? = some item) :
    Indirection.getP s k =
      some (if item.key.generation = k.generation then some item.value
            else none) := by
  simp [Indirection.getP, h1, h2]

theorem ind_getP_panic_iff {α : Type} {s : Indirection.SlotMap α} {k : Key} :
    Indirection.getP s k = none ↔
      ∃ ii, s.slots[k.index]? = some (.occupied ii) ∧ s.items[ii]? = none := by
  constructor
  · intro h
    cases hs : s.slots[k.index]? with
    | none => rw [ind_getP_none_of_oob hs] at h; cases h
    | some slot =>
      cases slot with
      | vacant g => rw [ind_getP_none_of_vacant hs] at h; cases h
      | occupied ii =>
        cases hi : s.items[ii]? with
        | some item => rw [ind_getP_occupied hs hi] at h; cases h
        | none => exact ⟨ii, rfl, hi⟩
  · intro ⟨ii, hs, hi⟩
    simp [Indirection.getP, hs, hi]

theorem ind_getP_valid_iff {α : Type} {s : Indirection.SlotMap α} {k : Key}
    {v : α} :
    Indirection.getP s k = some (some v) ↔
      ∃ ii item, s.slots[k.index]? = some (.occupied ii) ∧
        s.items[ii]? = some item ∧
        item.key.generation = k.generation ∧ item.value = v := by
  constructor
  · intro h
    cases hs : s.slots[k.index]? with
    | none => rw [ind_getP_none_of_oob hs] at h; cases h
    | some slot =>
      cases slot with
      | vacant g => rw [ind_getP_none_of_vacant hs] at h; cases h
      | occupied ii =>
        cases hi : s.items[ii]? with
        | none =>
          have := ind_getP_panic_iff.mpr ⟨ii, hs, hi⟩
          rw [this] at h
          cases h
        | some item =>
          rw [ind_getP_occupied hs hi] at h
          by_cases hg : item.key.generation = k.generation
          · rw [if_pos hg] at h
            simp only [Option.some.injEq] at h
            exact ⟨ii, item, rfl, hi, hg, h⟩
          · rw [if_neg hg] at h
            cases h
  · intro ⟨ii, item, hs, hi, hg, hv⟩
    rw [ind_getP_occupied hs hi, if_pos hg, hv]

/-! ## Indirect layout: consequences of the bidirectional invariant -/

theorem ind_inv_getP_ne_none {α : Type} {s : Indirection.SlotMap α}
    (hI : Indirection.Inv s) (k : Key) :
    Indirection.getP s k ≠ none := by
  intro h
  obtain ⟨ii, hs, hi⟩ := ind_getP_panic_iff.mp h
  obtain ⟨item, hitem, _⟩ := hI.slotToItem k.index ii hs
  rw [hitem] at hi
  cases hi

theorem ind_inv_slots_inj {α : Type} {s : Indirection.SlotMap α}
    (hI : Indirection.Inv s) {p q i : Nat}
    (hp : s.slots[p]? = some (.occupied i))
    (hq : s.slots[q]? = some (.occupied i)) : p = q := by
  obtain ⟨item, hitem, hip⟩ := hI.slotToItem p i hp
  obtain ⟨item', hitem', hiq⟩ := hI.slotToItem q i hq
  rw [hitem] at hitem'
  cases hitem'
  rw [← hip, ← hiq]

theorem ind_inv_valid_item {α : Type} {s : Indirection.SlotMap α}
    (hI : Indirection.Inv s) {k : Key} {v : α}
    (h : Indirection.getP s k = some (some v)) :
    ∃ ii, s.slots[k.index]? = some (.occupied ii) ∧
      s.items[ii]? = some ⟨v, k⟩ := by
  obtain ⟨ii, item, hs, hi, hg, hv⟩ := ind_getP_valid_iff.mp h
  obtain ⟨item', hitem', hidx⟩ := hI.slotToItem k.index ii hs
  rw [hi] at hitem'
  cases hitem'
  refine ⟨ii, hs, ?_⟩
  rw [hi]
  have : item = ⟨v, k⟩ := by
    obtain ⟨iv, ⟨kidx, kgen⟩⟩ := item
    obtain ⟨kidx', kgen'⟩ := k
    simp_all
  rw [this]

/-! ## Indirect layout: characterizations of insert and remove -/

theorem ind_insert_eq_some {α : Type} {s : Indirection.SlotMap α} {v : α}
    {k : Key} {s' : Indirection.SlotMap α}
    (h : Indirection.insert s v = some (k, s')) :
    (∃ rest, s.free = k.index :: rest ∧
       s.slots[k.index]? = some (.vacant k.generation) ∧
       s' = ⟨s.items ++ [⟨v, k⟩],
             s.slots.set k.index (.occupied s.items.length), rest⟩) ∨
    (s.free = [] ∧ k = ⟨s.slots.length, 0⟩ ∧
       s' = ⟨s.items ++ [⟨v, k⟩],
             s.slots ++ [.occupied s.items.length], s.free⟩) := by
  unfold Indirection.insert at h
  split at h
  next i rest hfree =>
    split at h
    next g hslot =>
      cases h
      exact Or.inl ⟨rest, hfree, hslot, rfl⟩
    next => exact absurd h (by simp)
    next => exact absurd h (by simp)
  next hfree =>
    cases h
    exact Or.inr ⟨hfree, rfl, rfl⟩

theorem ind_insert_cons_free {α : Type} {s : Indirection.SlotMap α} {v : α}
    {i : Nat} {rest : List Nat} {g : Nat}
    (h : s.free = i :: rest) (hs : s.slots[i]? = some (.vacant g)) :
    Indirection.insert s v =
      some (⟨i, g⟩, ⟨s.items ++ [⟨v, ⟨i, g⟩⟩],
            s.slots.set i (.occupied s.items.length), rest⟩) := by
  simp [Indirection.insert, h, hs]

theorem ind_insert_empty_free {α : Type} {s : Indirection.SlotMap α} {v : α}
    (h : s.free = []) :
    Indirection.insert s v =
      some (⟨s.slots.length, 0⟩,
            ⟨s.items ++ [⟨v, ⟨s.slots.length, 0⟩⟩],
             s.slots ++ [.occupied s.items.length], s.free⟩) := by
  simp [Indirection.insert, h]

theorem ind_remove_of_getP_none {α : Type} {s : Indirection.SlotMap α}
    {k : Key} (h : Indirection.getP s k = some none) :
    Indirection.remove s k = some (none, s) := by
  simp [Indirection.remove, h]

theorem ind_remove_of_getP_panic {α : Type} {s : Indirection.SlotMap α}
    {k : Key} (h : Indirection.getP s k = none) :
    Indirection.remove s k = none := by
  simp [Indirection.remove, h]

theorem ind_remove_pop {α : Type} {s : Indirection.SlotMap α} {k : Key}
    {ii : Nat} {item : Indirection.Item α}
    (h1 : s.slots[k.index]? = some (.occupied ii))
    (h2 : s.items[ii]? = some item)
    (h3 : item.key.generation = k.generation)
    (h4 : ii = s.items.length - 1) :
    Indirection.remove s k = some (some item.value,
      ⟨s.items.dropLast, s.slots.set k.index (.vacant (k.generation + 1)),
       ii :: s.free⟩) := by
  have hget : Indirection.getP s k = some (some item.value) :=
    ind_getP_valid_iff.mpr ⟨ii, item, h1, h2, h3, rfl⟩
  have hlast : s.items.getLast? = some item := by
    rw [List.getLast?_eq_getElem?, ← h4, h2]
  simp [Indirection.remove, hget, h1, h4, hlast]

theorem ind_remove_swap {α : Type} {s : Indirection.SlotMap α} {k : Key}
    {ii : Nat} {item last : Indirection.Item α}
    (h1 : s.slots[k.index]? = some (.occupied ii))
    (h2 : s.items[ii]? = some item)
    (h3 : item.key.generation = k.generation)
    (h4 : ii ≠ s.items.length - 1)
    (hlast : s.items.getLast? = some last) :
    Indirection.remove s k = some (some item.value,
      ⟨(s.items.set ii last).dropLast,
       (s.slots.set k.index
         (.vacant (k.generation + 1))).set last.key.index (.occupied ii),
       ii :: s.free⟩) := by
  have hget : Indirection.getP s k = some (some item.value) :=
    ind_getP_valid_iff.mpr ⟨ii, item, h1, h2, h3, rfl⟩
  simp [Indirection.remove, hget, h1, h4, hlast, h2]

theorem ind_remove_eq_some {α : Type} {s : Indirection.SlotMap α} {k : Key}
    {r : Option α} {s' : Indirection.SlotMap α}
    (h : Indirection.remove s k = some (r, s')) :
    (Indirection.getP s k = some none ∧ r = none ∧ s' = s) ∨
    (∃ ii item, s.slots[k.index]? = some (.occupied ii) ∧
       s.items[ii]? = some item ∧
       item.key.generation = k.generation ∧ r = some item.value ∧
       ((ii = s.items.length - 1 ∧
          s' = ⟨s.items.dropLast,
                s.slots.set k.index (.vacant (k.generation + 1)),
                ii :: s.free⟩) ∨
        (ii ≠ s.items.length - 1 ∧ ∃ last, s.items.getLast? = some last ∧
          s' = ⟨(s.items.set ii last).dropLast,
                (s.slots.set k.index
                  (.vacant (k.generation + 1))).set last.key.index
                  (.occupied ii),
                ii :: s.free⟩))) := by
  cases hget : Indirection.getP s k with
  | none =>
    rw [ind_remove_of_getP_panic hget] at h
    cases h
  | some r' =>
    cases r' with
    | none =>
      rw [ind_remove_of_getP_none hget] at h
      simp only [Option.some.injEq, Prod.mk.injEq] at h
      exact Or.inl ⟨rfl, h.1.symm, h.2.symm⟩
    | some v =>
      obtain ⟨ii, item, h1, h2, h3, hv⟩ := ind_getP_valid_iff.mp hget
      have hlen : ii < s.items.length := (List.getElem?_eq_some.mp h2).1
      by_cases h4 : ii = s.items.length - 1
      · rw [ind_remove_pop h1 h2 h3 h4] at h
        simp only [Option.some.injEq, Prod.mk.injEq] at h
        exact Or.inr ⟨ii, item, h1, h2, h3, h.1.symm,
          Or.inl ⟨h4, h.2.symm⟩⟩
      · have hnb : s.items.length - 1 < s.items.length := by omega
        have hlast : ∃ last, s.items.getLast? = some last := by
          rw [List.getLast?_eq_getElem?]
          exact ⟨_, List.getElem?_eq_getElem hnb⟩
        obtain ⟨last, hlast⟩ := hlast
        rw [ind_remove_swap h1 h2 h3 h4 hlast] at h
        simp only [Option.some.injEq, Prod.mk.injEq] at h
        exact Or.inr ⟨ii, item, h1, h2, h3, h.1.symm,
          Or.inr ⟨h4, last, hlast, h.2.symm⟩⟩

theorem ind_remove_isSome {α : Type} {s : Indirection.SlotMap α}
    (hI : Indirection.Inv s) (k : Key) :
    Indirection.remove s k ≠ none := by
  cases hget : Indirection.getP s k with
  | none => exact absurd hget (ind_inv_getP_ne_none hI k)
  | some r' =>
    cases r' with
    | none => rw [ind_remove_of_getP_none hget]; simp
    | some v =>
      obtain ⟨ii, item, h1, h2, h3, hv⟩ := ind_getP_valid_iff.mp hget
      by_cases h4 : ii = s.items.length - 1
      · rw [ind_remove_pop h1 h2 h3 h4]; simp
      · have hlen : ii < s.items.length := (List.getElem?_eq_some.mp h2).1
        have hnb : s.items.length - 1 < s.items.length := by omega
        have hlast : ∃ last, s.items.getLast? = some last := by
          rw [List.getLast?_eq_getElem?]
          exact ⟨_, List.getElem?_eq_getElem hnb⟩
        obtain ⟨last, hlast⟩ := hlast
        rw [ind_remove_swap h1 h2 h3 h4 hlast]
        simp

/-! ## Indirect layout: preservation of the bidirectional invariant -/

theorem list_getElem?_append_lt {α : Type} {l l' : List α} {i : Nat}
    (h : i < l.length) : (l ++ l')[i]? = l[i]? := by
  rw [List.getElem?_append, if_pos h]

theorem list_getElem?_dropLast_lt {α : Type} {l : List α} {i : Nat}
    (h : i < l.length - 1) : l.dropLast[i]? = l[i]? := by
  rw [List.getElem?_dropLast, if_pos h]

theorem list_getElem?_dropLast_ge {α : Type} {l : List α} {i : Nat}
    (h : ¬ i < l.length - 1) : l.dropLast[i]? = none := by
  rw [List.getElem?_dropLast, if_neg h]

theorem ind_inv_empty {α : Type} :
    Indirection.Inv (Indirection.SlotMap.empty : Indirection.SlotMap α) := by
  constructor
  · intro p i h
    simp [Indirection.SlotMap.empty] at h
  · intro i item h
    simp [Indirection.SlotMap.empty] at h

theorem ind_inv_insert {α : Type} {s : Indirection.SlotMap α} {v : α}
    {k : Key} {s' : Indirection.SlotMap α} (hI : Indirection.Inv s)
    (h : Indirection.insert s v = some (k, s')) : Indirection.Inv s' := by
  rcases ind_insert_eq_some h with
    ⟨rest, hfree, hslot, rfl⟩ | ⟨hfree, hk, rfl⟩
  · have hkb : k.index < s.slots.length := (List.getElem?_eq_some.mp hslot).1
    constructor
    · intro p i hp
      dsimp only at hp ⊢
      by_cases hpk : p = k.index
      · rw [hpk, List.getElem?_set_self hkb] at hp
        simp only [Option.some.injEq, Indirection.Slot.occupied.injEq] at hp
        subst hp
        refine ⟨⟨v, k⟩, List.getElem?_concat_length _ _, ?_⟩
        rw [hpk]
      · rw [List.getElem?_set_ne (fun hh => hpk hh.symm)] at hp
        obtain ⟨item, hit, hidx⟩ := hI.slotToItem p i hp
        have hib : i < s.items.length := (List.getElem?_eq_some.mp hit).1
        refine ⟨item, ?_, hidx⟩
        rw [list_getElem?_append_lt hib]
        exact hit
    · intro i item hit
      dsimp only at hit ⊢
      by_cases hib : i < s.items.length
      · rw [list_getElem?_append_lt hib] at hit
        have hold := hI.itemToSlot i item hit
        have hne : item.key.index ≠ k.index := by
          intro he
          rw [he, hslot] at hold
          cases hold
        rw [List.getElem?_set_ne (fun hh => hne hh.symm)]
        exact hold
      · rw [List.getElem?_append, if_neg hib] at hit
        have hiL : i = s.items.length := by
          by_contra hne
          have h1 : (1 : Nat) ≤ i - s.items.length := by omega
          have h2 : ([(⟨v, k⟩ : Indirection.Item α)]).length ≤
              i - s.items.length := by simpa using h1
          rw [List.getElem?_eq_none_iff.mpr h2] at hit
          cases hit
        rw [hiL] at hit
        simp only [Nat.sub_self, List.getElem?_cons_zero,
          Option.some.injEq] at hit
        rw [← hit, hiL]
        show (s.slots.set k.index
          (Indirection.Slot.occupied s.items.length))[k.index]? = _
        rw [List.getElem?_set_self hkb]
  · subst hk
    constructor
    · intro p i hp
      dsimp only at hp ⊢
      by_cases hpb : p < s.slots.length
      · rw [list_getElem?_append_lt hpb] at hp
        obtain ⟨item, hit, hidx⟩ := hI.slotToItem p i hp
        have hib : i < s.items.length := (List.getElem?_eq_some.mp hit).1
        refine ⟨item, ?_, hidx⟩
        rw [list_getElem?_append_lt hib]
        exact hit
      · rw [List.getElem?_append, if_neg hpb] at hp
        have hpL : p = s.slots.length := by
          by_contra hne
          have h1 : (1 : Nat) ≤ p - s.slots.length := by omega
          have h2 : ([Indirection.Slot.occupied s.items.length]).length ≤
              p - s.slots.length := by simpa using h1
          rw [List.getElem?_eq_none_iff.mpr h2] at hp
          cases hp
        rw [hpL] at hp
        simp only [Nat.sub_self, List.getElem?_cons_zero, Option.some.injEq,
          Indirection.Slot.occupied.injEq] at hp
        subst hp
        exact ⟨⟨v, ⟨s.slots.length, 0⟩⟩,
          List.getElem?_concat_length _ _, hpL.symm⟩
    · intro i item hit
      dsimp only at hit ⊢
      by_cases hib : i < s.items.length
      · rw [list_getElem?_append_lt hib] at hit
        have hold := hI.itemToSlot i item hit
        have hpb : item.key.index < s.slots.length :=
          (List.getElem?_eq_some.mp hold).1
        rw [list_getElem?_append_lt hpb]
        exact hold
      · rw [List.getElem?_append, if_neg hib] at hit
        have hiL : i = s.items.length := by
          by_contra hne
          have h1 : (1 : Nat) ≤ i - s.items.length := by omega
          have h2 : ([(⟨v, ⟨s.slots.length, 0⟩⟩ :
              Indirection.Item α)]).length ≤ i - s.items.length := by
            simpa using h1
          rw [List.getElem?_eq_none_iff.mpr h2] at hit
          cases hit
        rw [hiL] at hit
        simp only [Nat.sub_self, List.getElem?_cons_zero,
          Option.some.injEq] at hit
        rw [← hit, hiL]
        exact List.getElem?_concat_length _ _

theorem ind_inv_remove {α : Type} {s : Indirection.SlotMap α} {k : Key}
    {r : Option α} {s' : Indirection.SlotMap α} (hI : Indirection.Inv s)
    (h : Indirection.remove s k = some (r, s')) : Indirection.Inv s' := by
  rcases ind_remove_eq_some h with ⟨_, _, rfl⟩ |
    ⟨ii, item, h1, h2, h3, hr,
     ⟨h4, rfl⟩ | ⟨h4, last, hlast, rfl⟩⟩
  · exact hI
  · -- pop branch: the removed item was the last dense item
    have hkb : k.index < s.slots.length := (List.getElem?_eq_some.mp h1).1
    have hib : ii < s.items.length := (List.getElem?_eq_some.mp h2).1
    constructor
    · intro p j hp
      dsimp only at hp ⊢
      by_cases hpk : p = k.index
      · rw [hpk, List.getElem?_set_self hkb] at hp
        simp at hp
      · rw [List.getElem?_set_ne (fun hh => hpk hh.symm)] at hp
        obtain ⟨itemj, hitj, hidx⟩ := hI.slotToItem p j hp
        have hjb : j < s.items.length := (List.getElem?_eq_some.mp hitj).1
        have hji : j ≠ ii := by
          intro he
          exact hpk (ind_inv_slots_inj hI (he ▸ hp) h1)
        have hjlt : j < s.items.length - 1 := by omega
        refine ⟨itemj, ?_, hidx⟩
        rw [list_getElem?_dropLast_lt hjlt]
        exact hitj
    · intro j itemj hit
      dsimp only at hit ⊢
      have hjlt : j < s.items.length - 1 := by
        by_contra hge
        rw [list_getElem?_dropLast_ge hge] at hit
        cases hit
      rw [list_getElem?_dropLast_lt hjlt] at hit
      have hold := hI.itemToSlot j itemj hit
      have hne : itemj.key.index ≠ k.index := by
        intro he
        rw [he, h1] at hold
        simp only [Option.some.injEq, Indirection.Slot.occupied.injEq]
          at hold
        omega
      rw [List.getElem?_set_ne (fun hh => hne hh.symm)]
      exact hold
  · -- swap branch: the last dense item moved into the freed position
    have hkb : k.index < s.slots.length := (List.getElem?_eq_some.mp h1).1
    have hib : ii < s.items.length := (List.getElem?_eq_some.mp h2).1
    have hiilt : ii < s.items.length - 1 := by omega
    have hlasti : s.items[s.items.length - 1]? = some last := by
      rw [← List.getLast?_eq_getElem?]
      exact hlast
    have hpslot := hI.itemToSlot (s.items.length - 1) last hlasti
    have hpb : last.key.index < s.slots.length :=
      (List.getElem?_eq_some.mp hpslot).1
    have hpne : last.key.index ≠ k.index := by
      intro he
      rw [he, h1] at hpslot
      simp only [Option.some.injEq, Indirection.Slot.occupied.injEq]
        at hpslot
      omega
    have hpb' : last.key.index <
        (s.slots.set k.index (.vacant (k.generation + 1))).length := by
      rw [List.length_set]
      exact hpb
    constructor
    · intro q j hq
      dsimp only at hq ⊢
      by_cases hqp : q = last.key.index
      · rw [hqp, List.getElem?_set_self hpb'] at hq
        simp only [Option.some.injEq, Indirection.Slot.occupied.injEq] at hq
        subst hq
        refine ⟨last, ?_, hqp.symm⟩
        have hlt : ii < (s.items.set ii last).length - 1 := by
          rw [List.length_set]
          exact hiilt
        rw [list_getElem?_dropLast_lt hlt, List.getElem?_set_self hib]
      · rw [List.getElem?_set_ne (fun hh => hqp hh.symm)] at hq
        by_cases hqk : q = k.index
        · rw [hqk, List.getElem?_set_self hkb] at hq
          simp at hq
        · rw [List.getElem?_set_ne (fun hh => hqk hh.symm)] at hq
          obtain ⟨itemj, hitj, hidx⟩ := hI.slotToItem q j hq
          have hjb : j < s.items.length := (List.getElem?_eq_some.mp hitj).1
          have hji : j ≠ ii := by
            intro he
            exact hqk (ind_inv_slots_inj hI (he ▸ hq) h1)
          have hjlast : j ≠ s.items.length - 1 := by
            intro he
            exact hqp (ind_inv_slots_inj hI (he ▸ hq) hpslot)
          have hjlt : j < (s.items.set ii last).length - 1 := by
            rw [List.length_set]
            omega
          refine ⟨itemj, ?_, hidx⟩
          rw [list_getElem?_dropLast_lt hjlt,
              List.getElem?_set_ne (fun hh => hji hh.symm)]
          exact hitj
    · intro j itemj hit
      dsimp only at hit ⊢
      have hjlt : j < (s.items.set ii last).length - 1 := by
        by_contra hge
        rw [list_getElem?_dropLast_ge hge] at hit
        cases hit
      have hjlen : j < s.items.length - 1 := by
        rw [List.length_set] at hjlt
        exact hjlt
      rw [list_getElem?_dropLast_lt hjlt] at hit
      by_cases hji : j = ii
      · rw [hji, List.getElem?_set_self hib] at hit
        simp only [Option.some.injEq] at hit
        rw [← hit, hji]
        rw [List.getElem?_set_self hpb']
      · rw [List.getElem?_set_ne (fun hh => hji hh.symm)] at hit
        have hold := hI.itemToSlot j itemj hit
        have hnek : itemj.key.index ≠ k.index := by
          intro he
          rw [he, h1] at hold
          simp only [Option.some.injEq, Indirection.Slot.occupied.injEq]
            at hold
          exact hji hold.symm
        have hnep : itemj.key.index ≠ last.key.index := by
          intro he
          rw [he, hpslot] at hold
          simp only [Option.some.injEq, Indirection.Slot.occupied.injEq]
            at hold
          omega
        rw [List.getElem?_set_ne (fun hh => hnep hh.symm),
            List.getElem?_set_ne (fun hh => hnek hh.symm)]
        exact hold

theorem ind_reach_inv {α : Type} {s : Indirection.SlotMap α}
    (h : Indirection.Reach s) : Indirection.Inv s := by
  induction h with
  | refl => exact ind_inv_empty
  | tail hsteps hstep ih =>
    cases hstep with
    | insert v k hs => exact ind_inv_insert ih hs
    | remove k r hs => exact ind_inv_remove ih hs

/-! ## Indirect layout: slot generations are monotone along operations -/

theorem ind_slotGen_vacant {α : Type} {s : Indirection.SlotMap α}
    {p g : Nat} (h : s.slots[p]? = some (.vacant g)) :
    Indirection.slotGen s p = g := by
  simp [Indirection.slotGen, h]

theorem ind_slotGen_oob {α : Type} {s : Indirection.SlotMap α} {p : Nat}
    (h : s.slots[p]? = none) : Indirection.slotGen s p = 0 := by
  simp [Indirection.slotGen, h]

theorem ind_slotGen_occupied {α : Type} {s : Indirection.SlotMap α}
    {p ii : Nat} {item : Indirection.Item α}
    (h1 : s.slots[p]? = some (.occupied ii))
    (h2 : s.items[ii]? = some item) :
    Indirection.slotGen s p = item.key.generation := by
  simp [Indirection.slotGen, h1, h2]

theorem ind_getP_valid_slotGen {α : Type} {s : Indirection.SlotMap α}
    {k : Key} {v : α} (h : Indirection.getP s k = some (some v)) :
    Indirection.slotGen s k.index = k.generation := by
  obtain ⟨ii, item, h1, h2, h3, _⟩ := ind_getP_valid_iff.mp h
  rw [ind_slotGen_occupied h1 h2, h3]

theorem ind_getP_valid_index_lt {α : Type} {s : Indirection.SlotMap α}
    {k : Key} {v : α} (h : Indirection.getP s k = some (some v)) :
    k.index < s.slots.length := by
  obtain ⟨ii, item, h1, _, _, _⟩ := ind_getP_valid_iff.mp h
  exact (List.getElem?_eq_some.mp h1).1

theorem ind_insert_key_gen {α : Type} {s : Indirection.SlotMap α} {v : α}
    {k : Key} {s' : Indirection.SlotMap α}
    (h : Indirection.insert s v = some (k, s')) :
    k.generation = Indirection.slotGen s k.index := by
  rcases ind_insert_eq_some h with ⟨rest, _, hslot, _⟩ | ⟨_, rfl, _⟩
  · exact (ind_slotGen_vacant hslot).symm
  · have hnone : s.slots[(s.slots.length : Nat)]? = none := by
      rw [List.getElem?_eq_none_iff]
    simp [Indirection.slotGen, hnone]

theorem ind_step_slots_length {α : Type} {s s' : Indirection.SlotMap α}
    (h : Indirection.Step s s') : s.slots.length ≤ s'.slots.length := by
  cases h with
  | insert v k hs =>
    rcases ind_insert_eq_some hs with ⟨rest, _, _, rfl⟩ | ⟨_, _, rfl⟩
    · simp
    · simp
  | remove k r hs =>
    rcases ind_remove_eq_some hs with ⟨_, _, rfl⟩ |
      ⟨ii, item, _, _, _, _, ⟨_, rfl⟩ | ⟨_, last, _, rfl⟩⟩
    · exact le_refl _
    · simp
    · simp

theorem ind_step_slotGen {α : Type} {s s' : Indirection.SlotMap α}
    (hI : Indirection.Inv s) (h : Indirection.Step s s') (p : Nat) :
    Indirection.slotGen s p ≤ Indirection.slotGen s' p := by
  cases h with
  | insert v k hs =>
    rcases ind_insert_eq_some hs with
      ⟨rest, hfree, hslot, rfl⟩ | ⟨hfree, hk, rfl⟩
    · have hkb : k.index < s.slots.length :=
        (List.getElem?_eq_some.mp hslot).1
      by_cases hpk : p = k.index
      · subst hpk
        rw [ind_slotGen_vacant hslot]
        have hset : ((s.slots.set k.index (Indirection.Slot.occupied
            s.items.length)))[k.index]? =
            some (.occupied s.items.length) :=
          List.getElem?_set_self hkb
        have hgoal := ind_slotGen_occupied (s := ⟨s.items ++ [⟨v, k⟩],
          s.slots.set k.index (.occupied s.items.length), rest⟩) hset
          (List.getElem?_concat_length _ _)
        rw [hgoal]
      · have hset : ((s.slots.set k.index (Indirection.Slot.occupied
            s.items.length)))[p]? = s.slots[p]? :=
          List.getElem?_set_ne (fun hh => hpk hh.symm)
        cases hsp : s.slots[p]? with
        | none =>
          rw [ind_slotGen_oob hsp,
              ind_slotGen_oob (s := ⟨_, _, _⟩) (hset.trans hsp)]
        | some slot =>
          cases slot with
          | vacant g =>
            rw [ind_slotGen_vacant hsp,
                ind_slotGen_vacant (s := ⟨_, _, _⟩) (hset.trans hsp)]
          | occupied j =>
            obtain ⟨itemj, hitj, _⟩ := hI.slotToItem p j hsp
            have hjb : j < s.items.length :=
              (List.getElem?_eq_some.mp hitj).1
            rw [ind_slotGen_occupied hsp hitj,
                ind_slotGen_occupied (s := ⟨_, _, _⟩) (hset.trans hsp)
                  (by rw [list_getElem?_append_lt hjb]; exact hitj)]
    · subst hk
      by_cases hpb : p < s.slots.length
      · have hset : ((s.slots ++ [Indirection.Slot.occupied
            s.items.length]))[p]? = s.slots[p]? :=
          list_getElem?_append_lt hpb
        cases hsp : s.slots[p]? with
        | none =>
          rw [ind_slotGen_oob hsp,
              ind_slotGen_oob (s := ⟨_, _, _⟩) (hset.trans hsp)]
        | some slot =>
          cases slot with
          | vacant g =>
            rw [ind_slotGen_vacant hsp,
                ind_slotGen_vacant (s := ⟨_, _, _⟩) (hset.trans hsp)]
          | occupied j =>
            obtain ⟨itemj, hitj, _⟩ := hI.slotToItem p j hsp
            have hjb : j < s.items.length :=
              (List.getElem?_eq_some.mp hitj).1
            rw [ind_slotGen_occupied hsp hitj,
                ind_slotGen_occupied (s := ⟨_, _, _⟩) (hset.trans hsp)
                  (by rw [list_getElem?_append_lt hjb]; exact hitj)]
      · have hnone : s.slots[p]? = none := by
          rw [List.getElem?_eq_none_iff]
          omega
        rw [ind_slotGen_oob hnone]
        exact Nat.zero_le _
  | remove k r hs =>
    rcases ind_remove_eq_some hs with ⟨_, _, rfl⟩ |
      ⟨ii, item, h1, h2, h3, hr, ⟨h4, rfl⟩ | ⟨h4, last, hlast, rfl⟩⟩
    · exact le_refl _
    · -- pop branch
      have hkb : k.index < s.slots.length := (List.getElem?_eq_some.mp h1).1
      have hib : ii < s.items.length := (List.getElem?_eq_some.mp h2).1
      by_cases hpk : p = k.index
      · subst hpk
        rw [ind_slotGen_occupied h1 h2, h3,
            ind_slotGen_vacant (s := ⟨_, _, _⟩)
              (List.getElem?_set_self hkb)]
        omega
      · have hset : ((s.slots.set k.index (Indirection.Slot.vacant
            (k.generation + 1))))[p]? = s.slots[p]? :=
          List.getElem?_set_ne (fun hh => hpk hh.symm)
        cases hsp : s.slots[p]? with
        | none =>
          rw [ind_slotGen_oob hsp,
              ind_slotGen_oob (s := ⟨_, _, _⟩) (hset.trans hsp)]
        | some slot =>
          cases slot with
          | vacant g =>
            rw [ind_slotGen_vacant hsp,
                ind_slotGen_vacant (s := ⟨_, _, _⟩) (hset.trans hsp)]
          | occupied j =>
            obtain ⟨itemj, hitj, _⟩ := hI.slotToItem p j hsp
            have hjb : j < s.items.length :=
              (List.getElem?_eq_some.mp hitj).1
            have hji : j ≠ ii := by
              intro he
              exact hpk (ind_inv_slots_inj hI (he ▸ hsp) h1)
            have hjlt : j < s.items.length - 1 := by omega
            rw [ind_slotGen_occupied hsp hitj,
                ind_slotGen_occupied (s := ⟨_, _, _⟩) (hset.trans hsp)
                  (by rw [list_getElem?_dropLast_lt hjlt]; exact hitj)]
    · -- swap branch
      have hkb : k.index < s.slots.length := (List.getElem?_eq_some.mp h1).1
      have hib : ii < s.items.length := (List.getElem?_eq_some.mp h2).1
      have hiilt : ii < s.items.length - 1 := by omega
      have hlasti : s.items[s.items.length - 1]? = some last := by
        rw [← List.getLast?_eq_getElem?]
        exact hlast
      have hpslot := hI.itemToSlot (s.items.length - 1) last hlasti
      have hpb : last.key.index < s.slots.length :=
        (List.getElem?_eq_some.mp hpslot).1
      have hpne : last.key.index ≠ k.index := by
        intro he
        rw [he, h1] at hpslot
        simp only [Option.some.injEq, Indirection.Slot.occupied.injEq]
          at hpslot
        omega
      have hpb' : last.key.index <
          (s.slots.set k.index (.vacant (k.generation + 1))).length := by
        rw [List.length_set]
        exact hpb
      by_cases hpp : p = last.key.index
      · subst hpp
        have hset : (((s.slots.set k.index (Indirection.Slot.vacant
            (k.generation + 1))).set last.key.index
            (Indirection.Slot.occupied ii)))[last.key.index]? =
            some (.occupied ii) := List.getElem?_set_self hpb'
        have hlt : ii < (s.items.set ii last).length - 1 := by
          rw [List.length_set]
          exact hiilt
        have hnew : ((s.items.set ii last).dropLast)[ii]? = some last := by
          rw [list_getElem?_dropLast_lt hlt, List.getElem?_set_self hib]
        rw [ind_slotGen_occupied hpslot hlasti,
            ind_slotGen_occupied (s := ⟨_, _, _⟩) hset hnew]
      · have hset1 : (((s.slots.set k.index (Indirection.Slot.vacant
            (k.generation + 1))).set last.key.index
            (Indirection.Slot.occupied ii)))[p]? =
            ((s.slots.set k.index (Indirection.Slot.vacant
            (k.generation + 1))))[p]? :=
          List.getElem?_set_ne (fun hh => hpp hh.symm)
        by_cases hpk : p = k.index
        · subst hpk
          have hset2 : ((s.slots.set k.index (Indirection.Slot.vacant
              (k.generation + 1))))[k.index]? =
              some (.vacant (k.generation + 1)) :=
            List.getElem?_set_self hkb
          rw [ind_slotGen_occupied h1 h2, h3,
              ind_slotGen_vacant (s := ⟨_, _, _⟩) (hset1.trans hset2)]
          omega
        · have hset2 : ((s.slots.set k.index (Indirection.Slot.vacant
              (k.generation + 1))))[p]? = s.slots[p]? :=
            List.getElem?_set_ne (fun hh => hpk hh.symm)
          have hset := hset1.trans hset2
          cases hsp : s.slots[p]? with
          | none =>
            rw [ind_slotGen_oob hsp,
                ind_slotGen_oob (s := ⟨_, _, _⟩) (hset.trans hsp)]
          | some slot =>
            cases slot with
            | vacant g =>
              rw [ind_slotGen_vacant hsp,
                  ind_slotGen_vacant (s := ⟨_, _, _⟩) (hset.trans hsp)]
            | occupied j =>
              obtain ⟨itemj, hitj, _⟩ := hI.slotToItem p j hsp
              have hjb : j < s.items.length :=
                (List.getElem?_eq_some.mp hitj).1
              have hji : j ≠ ii := by
                intro he
                exact hpk (ind_inv_slots_inj hI (he ▸ hsp) h1)
              have hjlast : j ≠ s.items.length - 1 := by
                intro he
                exact hpp (ind_inv_slots_inj hI (he ▸ hsp) hpslot)
              have hjlt : j < (s.items.set ii last).length - 1 := by
                rw [List.length_set]
                omega
              rw [ind_slotGen_occupied hsp hitj,
                  ind_slotGen_occupied (s := ⟨_, _, _⟩) (hset.trans hsp)
                    (by rw [list_getElem?_dropLast_lt hjlt,
                        List.getElem?_set_ne (fun hh => hji hh.symm)]
                        exact hitj)]

theorem ind_reachFrom_inv_mono {α : Type} {s s' : Indirection.SlotMap α}
    (hI : Indirection.Inv s)
    (h : Relation.ReflTransGen Indirection.Step s s') :
    Indirection.Inv s' ∧
      (∀ p, Indirection.slotGen s p ≤ Indirection.slotGen s' p) ∧
      s.slots.length ≤ s'.slots.length := by
  induction h with
  | refl => exact ⟨hI, fun p => le_refl _, le_refl _⟩
  | tail hsteps hstep ih =>
    obtain ⟨ihInv, ihMono, ihLen⟩ := ih
    refine ⟨?_,
      fun p => le_trans (ihMono p) (ind_step_slotGen ihInv hstep p),
      le_trans ihLen (ind_step_slots_length hstep)⟩
    cases hstep with
    | insert v k hs => exact ind_inv_insert ihInv hs
    | remove k r hs => exact ind_inv_remove ihInv hs

/-! ## Indirect layout: effects of remove and insert on lookups -/

theorem ind_remove_then_getP {α : Type} {s : Indirection.SlotMap α}
    {k : Key} {v : α} {s' : Indirection.SlotMap α} (hI : Indirection.Inv s)
    (h : Indirection.remove s k = some (some v, s')) :
    Indirection.getP s' k = some none ∧
      Indirection.slotGen s' k.index = k.generation + 1 := by
  rcases ind_remove_eq_some h with ⟨_, hr, _⟩ |
    ⟨ii, item, h1, h2, h3, hr, ⟨h4, rfl⟩ | ⟨h4, last, hlast, rfl⟩⟩
  · cases hr
  · have hkb : k.index < s.slots.length := (List.getElem?_eq_some.mp h1).1
    have hvac : ((s.slots.set k.index (Indirection.Slot.vacant
        (k.generation + 1))))[k.index]? =
        some (.vacant (k.generation + 1)) := List.getElem?_set_self hkb
    exact ⟨ind_getP_none_of_vacant (s := ⟨_, _, _⟩) hvac,
      ind_slotGen_vacant (s := ⟨_, _, _⟩) hvac⟩
  · have hkb : k.index < s.slots.length := (List.getElem?_eq_some.mp h1).1
    have hib : ii < s.items.length := (List.getElem?_eq_some.mp h2).1
    have hlasti : s.items[s.items.length - 1]? = some last := by
      rw [← List.getLast?_eq_getElem?]
      exact hlast
    have hpslot := hI.itemToSlot (s.items.length - 1) last hlasti
    have hpne : last.key.index ≠ k.index := by
      intro he
      rw [he, h1] at hpslot
      simp only [Option.some.injEq, Indirection.Slot.occupied.injEq]
        at hpslot
      omega
    have hvac : (((s.slots.set k.index (Indirection.Slot.vacant
        (k.generation + 1))).set last.key.index
        (Indirection.Slot.occupied ii)))[k.index]? =
        some (.vacant (k.generation + 1)) := by
      rw [List.getElem?_set_ne hpne, List.getElem?_set_self hkb]
    exact ⟨ind_getP_none_of_vacant (s := ⟨_, _, _⟩) hvac,
      ind_slotGen_vacant (s := ⟨_, _, _⟩) hvac⟩

theorem ind_insert_getP_before {α : Type} {s : Indirection.SlotMap α}
    {v : α} {k' : Key} {s' : Indirection.SlotMap α}
    (h : Indirection.insert s v = some (k', s')) :
    Indirection.getP s k' = some none := by
  rcases ind_insert_eq_some h with ⟨rest, _, hslot, _⟩ | ⟨_, rfl, _⟩
  · exact ind_getP_none_of_vacant hslot
  · refine ind_getP_none_of_oob ?_
    rw [List.getElem?_eq_none_iff]

theorem ind_insert_len {α : Type} {s : Indirection.SlotMap α} {v : α}
    {k' : Key} {s' : Indirection.SlotMap α}
    (h : Indirection.insert s v = some (k', s')) :
    Indirection.len s' = Indirection.len s + 1 := by
  rcases ind_insert_eq_some h with ⟨rest, _, _, rfl⟩ | ⟨_, _, rfl⟩
  · unfold Indirection.len
    simp
  · unfold Indirection.len
    simp

theorem ind_insert_roundtrip {α : Type} {s : Indirection.SlotMap α} {v : α}
    {k' : Key} {s' : Indirection.SlotMap α}
    (h : Indirection.insert s v = some (k', s')) :
    Indirection.getP s' k' = some (some v) := by
  rcases ind_insert_eq_some h with ⟨rest, _, hslot, rfl⟩ | ⟨_, hk, rfl⟩
  · have hkb : k'.index < s.slots.length :=
      (List.getElem?_eq_some.mp hslot).1
    refine ind_getP_valid_iff.mpr ⟨s.items.length, ⟨v, k'⟩, ?_, ?_, rfl,
      rfl⟩
    · show ((s.slots.set k'.index (Indirection.Slot.occupied
        s.items.length)))[k'.index]? = _
      rw [List.getElem?_set_self hkb]
    · exact List.getElem?_concat_length _ _
  · subst hk
    refine ind_getP_valid_iff.mpr ⟨s.items.length,
      ⟨v, ⟨s.slots.length, 0⟩⟩, ?_, ?_, rfl, rfl⟩
    · exact List.getElem?_concat_length _ _
    · exact List.getElem?_concat_length _ _

theorem std_insert_roundtrip {α : Type} {s : Standard.SlotMap α} {v : α}
    {k' : Key} {s' : Standard.SlotMap α}
    (h : Standard.insert s v = some (k', s')) :
    Standard.get s' k' = some v := by
  rcases std_insert_eq_some h with ⟨rest, _, hslot, rfl⟩ | ⟨_, hk, rfl⟩
  · have hkb : k'.index < s.slots.length :=
      (List.getElem?_eq_some.mp hslot).1
    refine std_get_eq_some_iff.mpr ?_
    show ((s.slots.set k'.index (Standard.Slot.occupied k'.generation
      v)))[k'.index]? = _
    rw [List.getElem?_set_self hkb]
  · subst hk
    refine std_get_eq_some_iff.mpr ?_
    exact List.getElem?_concat_length _ _

theorem ind_insert_frame {α : Type} {s : Indirection.SlotMap α} {v : α}
    {k' : Key} {s' : Indirection.SlotMap α} (hI : Indirection.Inv s)
    (h : Indirection.insert s v = some (k', s')) :
    ∀ k, k ≠ k' → Indirection.getP s' k = Indirection.getP s k := by
  intro k hne
  rcases ind_insert_eq_some h with
    ⟨rest, hfree, hslot, rfl⟩ | ⟨hfree, hk, rfl⟩
  · have hkb : k'.index < s.slots.length :=
      (List.getElem?_eq_some.mp hslot).1
    by_cases hik : k.index = k'.index
    · have hgen : k.generation ≠ k'.generation := by
        intro hg
        exact hne (by cases k; cases k'; simp_all)
      have hocc : ((s.slots.set k'.index (Indirection.Slot.occupied
          s.items.length)))[k.index]? =
          some (.occupied s.items.length) := by
        rw [hik]
        exact List.getElem?_set_self hkb
      have hvac : s.slots[k.index]? =
          some (.vacant k'.generation) := by
        rw [hik]
        exact hslot
      rw [ind_getP_none_of_vacant hvac,
          ind_getP_occupied (s := ⟨_, _, _⟩) hocc
            (List.getElem?_concat_length _ _)]
      have : (⟨v, k'⟩ : Indirection.Item α).key.generation ≠
          k.generation := fun hh => hgen (hh.symm)
      rw [if_neg this]
    · have hset : ((s.slots.set k'.index (Indirection.Slot.occupied
          s.items.length)))[k.index]? = s.slots[k.index]? :=
        List.getElem?_set_ne (fun hh => hik hh.symm)
      cases hsp : s.slots[k.index]? with
      | none =>
        rw [ind_getP_none_of_oob hsp,
            ind_getP_none_of_oob (s := ⟨_, _, _⟩) (hset.trans hsp)]
      | some slot =>
        cases slot with
        | vacant g =>
          rw [ind_getP_none_of_vacant hsp,
              ind_getP_none_of_vacant (s := ⟨_, _, _⟩) (hset.trans hsp)]
        | occupied j =>
          obtain ⟨itemj, hitj, _⟩ := hI.slotToItem k.index j hsp
          have hjb : j < s.items.length :=
            (List.getElem?_eq_some.mp hitj).1
          rw [ind_getP_occupied hsp hitj,
              ind_getP_occupied (s := ⟨_, _, _⟩) (hset.trans hsp)
                (by rw [list_getElem?_append_lt hjb]; exact hitj)]
  · subst hk
    by_cases hik : k.index = s.slots.length
    · have hgen : k.generation ≠ 0 := by
        intro hg
        refine hne ?_
        cases k
        simp_all
      have hocc : ((s.slots ++ [Indirection.Slot.occupied
          s.items.length]))[k.index]? =
          some (.occupied s.items.length) := by
        rw [hik]
        exact List.getElem?_concat_length _ _
      have hoob : s.slots[k.index]? = none := by
        rw [List.getElem?_eq_none_iff, hik]
      rw [ind_getP_none_of_oob hoob,
          ind_getP_occupied (s := ⟨_, _, _⟩) hocc
            (List.getElem?_concat_length _ _)]
      have : (⟨v, (⟨s.slots.length, 0⟩ : Key)⟩ :
          Indirection.Item α).key.generation ≠ k.generation :=
        fun hh => hgen (hh.symm)
      rw [if_neg this]
    · by_cases hlt : k.index < s.slots.length
      · have hset : ((s.slots ++ [Indirection.Slot.occupied
            s.items.length]))[k.index]? = s.slots[k.index]? :=
          list_getElem?_append_lt hlt
        cases hsp : s.slots[k.index]? with
        | none =>
          rw [ind_getP_none_of_oob hsp,
              ind_getP_none_of_oob (s := ⟨_, _, _⟩) (hset.trans hsp)]
        | some slot =>
          cases slot with
          | vacant g =>
            rw [ind_getP_none_of_vacant hsp,
                ind_getP_none_of_vacant (s := ⟨_, _, _⟩) (hset.trans hsp)]
          | occupied j =>
            obtain ⟨itemj, hitj, _⟩ := hI.slotToItem k.index j hsp
            have hjb : j < s.items.length :=
              (List.getElem?_eq_some.mp hitj).1
            rw [ind_getP_occupied hsp hitj,
                ind_getP_occupied (s := ⟨_, _, _⟩) (hset.trans hsp)
                  (by rw [list_getElem?_append_lt hjb]; exact hitj)]
      · have h1 : s.slots[k.index]? = none := by
          rw [List.getElem?_eq_none_iff]
          omega
        have h2 : ((s.slots ++ [Indirection.Slot.occupied
            s.items.length]))[k.index]? = none := by
          rw [List.getElem?_eq_none_iff]
          simp only [List.length_append, List.length_cons, List.length_nil]
          omega
        rw [ind_getP_none_of_oob h1,
            ind_getP_none_of_oob (s := ⟨_, _, _⟩) h2]

/-! ## Indirect layout: the list of currently valid keys -/

theorem ind_validKeys_mem {α : Type} {s : Indirection.SlotMap α}
    (hI : Indirection.Inv s) (k : Key) :
    k ∈ Indirection.validKeys s ↔
      ∃ v, Indirection.getP s k = some (some v) := by
  unfold Indirection.validKeys
  rw [List.mem_map]
  constructor
  · intro ⟨item, hmem, hk⟩
    obtain ⟨i, hi⟩ := List.mem_iff_getElem?.mp hmem
    have hslot := hI.itemToSlot i item hi
    refine ⟨item.value, ind_getP_valid_iff.mpr ⟨i, item, ?_, hi, ?_, rfl⟩⟩
    · rw [← hk]
      exact hslot
    · rw [hk]
  · intro ⟨v, hv⟩
    obtain ⟨ii, hslot, hitem⟩ := ind_inv_valid_item hI hv
    refine ⟨⟨v, k⟩, ?_, rfl⟩
    exact List.mem_iff_getElem?.mpr ⟨ii, hitem⟩

theorem ind_validKeys_nodup {α : Type} {s : Indirection.SlotMap α}
    (hI : Indirection.Inv s) : (Indirection.validKeys s).Nodup := by
  rw [List.nodup_iff_getElem?_ne_getElem?]
  intro i j hij hjlen heq
  unfold Indirection.validKeys at hjlen heq
  rw [List.length_map] at hjlen
  have hilen : i < s.items.length := lt_trans hij hjlen
  obtain ⟨a, ha⟩ : ∃ a, s.items[i]? = some a :=
    ⟨s.items[i], List.getElem?_eq_getElem hilen⟩
  obtain ⟨b, hb⟩ : ∃ b, s.items[j]? = some b :=
    ⟨s.items[j], List.getElem?_eq_getElem hjlen⟩
  rw [List.getElem?_map, List.getElem?_map, ha, hb] at heq
  simp only [Option.map_some', Option.some.injEq] at heq
  have hsa := hI.itemToSlot i a ha
  have hsb := hI.itemToSlot j b hb
  rw [heq] at hsa
  rw [hsa] at hsb
  simp only [Option.some.injEq, Indirection.Slot.occupied.injEq] at hsb
  omega

theorem ind_validKeys_length {α : Type} (s : Indirection.SlotMap α) :
    (Indirection.validKeys s).length = Indirection.len s := by
  unfold Indirection.validKeys Indirection.len
  rw [List.length_map]

/-! ## Reachability of the concrete example states -/

theorem reach_exT1 : Standard.Reach Standard.exT1 :=
  Relation.ReflTransGen.tail Relation.ReflTransGen.refl
    (Standard.Step.insert 10 ⟨0, 0⟩ (by decide))

theorem reach_exT2 : Standard.Reach Standard.exT2 :=
  Relation.ReflTransGen.tail reach_exT1
    (Standard.Step.insert 20 ⟨1, 0⟩ (by decide))

theorem reach_exT3 : Standard.Reach Standard.exT3 :=
  Relation.ReflTransGen.tail reach_exT2
    (Standard.Step.remove ⟨0, 0⟩ (some 10) (by decide))

theorem reach_exU1 : Standard.Reach Standard.exU1 :=
  Relation.ReflTransGen.tail reach_exT1
    (Standard.Step.remove ⟨0, 0⟩ (some 10) (by decide))

theorem reach_exS1 : Indirection.Reach Indirection.exS1 :=
  Relation.ReflTransGen.tail Relation.ReflTransGen.refl
    (Indirection.Step.insert 10 ⟨0, 0⟩ (by decide))

theorem reach_exS2 : Indirection.Reach Indirection.exS2 :=
  Relation.ReflTransGen.tail reach_exS1
    (Indirection.Step.insert 20 ⟨1, 0⟩ (by decide))

theorem reach_exS3 : Indirection.Reach Indirection.exS3 :=
  Relation.ReflTransGen.tail reach_exS2
    (Indirection.Step.remove ⟨0, 0⟩ (some 10) (by decide))

theorem reach_exS4 : Indirection.Reach Indirection.exS4 :=
  Relation.ReflTransGen.tail reach_exS3
    (Indirection.Step.remove ⟨1, 0⟩ (some 20) (by decide))

theorem reach_exS5 : Indirection.Reach Indirection.exS5 :=
  Relation.ReflTransGen.tail reach_exS4
    (Indirection.Step.insert 30 ⟨0, 1⟩ (by decide))

/-! ## The claims -/

/-- C1: the claim says that in both layouts a successful `remove(k)`
pushes the slot position `k.index` onto the free list.  This fails on the
indirect layout: in the reachable state `exS3` (after
`insert 10; insert 20; remove ⟨0,0⟩`) the key ⟨1,0⟩ is valid, yet
removing it pushes dense-array index 0 — not slot position 1 — because
`src/lib.rs` line 170 pushes `indirect_index` instead of `key.index`.
The new top of the free list is 0, not 1. -/
theorem claim_C1_remove_pushes_wrong_index :
    Indirection.Reach Indirection.exS3 ∧
    Indirection.getP Indirection.exS3 ⟨1, 0⟩ = some (some 20) ∧
    Indirection.remove Indirection.exS3 ⟨1, 0⟩ =
      some (some 20, Indirection.exS4) ∧
    Indirection.exS4.free.head? = some 0 ∧
    (⟨1, 0⟩ : Key).index = 1 ∧
    Indirection.exS4.free.head? ≠ some 1 :=
  ⟨reach_exS3, by decide, by decide, by decide, by decide, by decide⟩

/-- Direct layout: a successful removal pushes exactly `k.index`, which
becomes the new top of the free list (the half of C1 the code does
satisfy). -/
theorem std_remove_free_top {α : Type}
    {s : Standard.SlotMap α} {k : Key} {v : α}
    {s' : Standard.SlotMap α}
    (h : Standard.remove s k = some (some v, s')) :
    s'.free.head? = some k.index := by
  rcases std_remove_eq_some h with ⟨_, hr, _⟩ | ⟨w, _, _, rfl⟩
  · cases hr
  · rfl

/-- Example of the direct-layout free-list push. -/
theorem std_remove_free_top_example :
    Standard.exU1.free.head? = some (⟨0, 0⟩ : Key).index :=
  std_remove_free_top (s := Standard.exT1)
    (v := 10) (by decide)

/-- C2: the claim says the fatal `unreachable!()` branch of insert is
never executed on reachable states.  This fails on the indirect layout:
state `exS5` is reachable (after
`insert 10; insert 20; remove ⟨0,0⟩; remove ⟨1,0⟩; insert 30`), its free
list still holds position 0, but slot 0 is occupied, so the next insert
pops 0 and panics at the `unreachable!()` in `src/lib.rs` line 138. -/
theorem claim_C2_insert_panics_on_reachable_state :
    Indirection.Reach Indirection.exS5 ∧
    Indirection.exS5.free.head? = some 0 ∧
    Indirection.exS5.slots[0]? = some (.occupied 0) ∧
    Indirection.insert Indirection.exS5 (40 : Nat) = none :=
  ⟨reach_exS5, by decide, by decide, by decide⟩

/-- Direct layout: on every reachable state insert returns normally —
the fatal branch is unreachable there (the half of C2 the code does
satisfy). -/
theorem std_insert_total_reachable {α : Type} {s : Standard.SlotMap α}
    (h : Standard.Reach s) (v : α) :
    Standard.insert s v ≠ none := by
  obtain ⟨k, s', hs⟩ := std_insert_isSome (std_reach_inv h) v
  rw [hs]
  simp

/-- Example of direct-layout insert totality on a reachable state. -/
theorem std_insert_total_example :
    Standard.insert Standard.exT3 (30 : Nat) ≠ none :=
  std_insert_total_reachable reach_exT3 30

/-- C3: the bidirectional pointer invariant of the indirect layout: in
every reachable state, every occupied slot at position `p` stores an
indirect index `i` that is a valid index into the dense item array and
`items[i]`'s owning key has index `p`; conversely every dense item's
owning slot is occupied with the matching indirect index. -/
theorem claim_C3_bidirectional_invariant {α : Type}
    (s : Indirection.SlotMap α) (h : Indirection.Reach s) :
    (∀ p i, s.slots[p]? = some (Indirection.Slot.occupied i) →
       (s.items[i]?).map (fun item : Indirection.Item α =>
         item.key.index) = some p) ∧
    (∀ (i : Nat) (item : Indirection.Item α), s.items[i]? = some item →
       s.slots[item.key.index]? =
         some (Indirection.Slot.occupied i)) := by
  have hI := ind_reach_inv h
  constructor
  · intro p i hp
    obtain ⟨item, hit, hidx⟩ := hI.slotToItem p i hp
    rw [hit, Option.map_some', hidx]
  · exact hI.itemToSlot

/-- Witness for C3 at the concrete reachable post-swap state `exS3`. -/
theorem claim_C3_witness :
    (Indirection.exS3.items[0]?).map (fun item : Indirection.Item Nat =>
      item.key.index) = some 1 ∧
    Indirection.exS3.slots[(⟨20, ⟨1, 0⟩⟩ :
      Indirection.Item Nat).key.index]? = some (.occupied 0) :=
  ⟨(claim_C3_bidirectional_invariant Indirection.exS3 reach_exS3).1 1 0
     (by decide),
   (claim_C3_bidirectional_invariant Indirection.exS3 reach_exS3).2 0
     ⟨20, ⟨1, 0⟩⟩ (by decide)⟩

/-- C7: the claim says the round trip `get(insert(v)) = Some(v)` holds at
every reachable state of both layouts.  On the indirect layout it fails
at the reachable state `exS5`: inserting panics (the free-list bug of C1
and C2), so the round trip aborts instead of yielding the value.  The
direct-layout half and the panic-free form of the round trip hold, see
`std_insert_roundtrip` and `ind_insert_roundtrip`. -/
theorem claim_C7_roundtrip_aborts_on_reachable_state :
    Indirection.Reach Indirection.exS5 ∧
    (Indirection.insert Indirection.exS5 (40 : Nat)).map
      (fun p => Indirection.getP p.2 p.1) = none :=
  ⟨reach_exS5, by decide⟩

/-- C4: use-after-free immunity in both layouts.  For every reachable
state and key valid in it, after removing that key every later state
reached by further successful operations still answers `get` with
nothing for the removed key, and any insert that reuses the same slot
position hands out a key with a different generation. -/
theorem claim_C4_use_after_free :
    (∀ (α : Type) (s : Standard.SlotMap α) (k : Key) (v : α)
       (s' s'' : Standard.SlotMap α), Standard.Reach s →
       Standard.remove s k = some (some v, s') →
       Relation.ReflTransGen Standard.Step s' s'' →
       Standard.get s'' k = none ∧
       (∀ (w : α) (k' : Key) (t : Standard.SlotMap α),
          Standard.insert s'' w = some (k', t) → k'.index = k.index →
          k'.generation ≠ k.generation)) ∧
    (∀ (α : Type) (s : Indirection.SlotMap α) (k : Key) (v : α)
       (s' s'' : Indirection.SlotMap α), Indirection.Reach s →
       Indirection.remove s k = some (some v, s') →
       Relation.ReflTransGen Indirection.Step s' s'' →
       Indirection.getP s'' k = some none ∧
       (∀ (w : α) (k' : Key) (t : Indirection.SlotMap α),
          Indirection.insert s'' w = some (k', t) → k'.index = k.index →
          k'.generation ≠ k.generation)) := by
  constructor
  · intro α s k v s' s'' hreach hrem hsteps
    have hgen' : Standard.slotGen s' k.index = k.generation + 1 :=
      std_remove_valid_slotGen hrem
    have hmono := (std_reachFrom_mono hsteps).1 k.index
    constructor
    · cases hg : Standard.get s'' k with
      | none => rfl
      | some w =>
        exfalso
        have h5 : Standard.slotGen s'' k.index = k.generation :=
          std_get_isSome_slotGen (by rw [hg]; rfl)
        omega
    · intro w k' t hins hidx
      have h5 := std_insert_key_gen hins
      rw [hidx] at h5
      omega
  · intro α s k v s' s'' hreach hrem hsteps
    have hIs := ind_reach_inv hreach
    have hIs' : Indirection.Inv s' := ind_inv_remove hIs hrem
    have hgen' : Indirection.slotGen s' k.index = k.generation + 1 :=
      (ind_remove_then_getP hIs hrem).2
    obtain ⟨hIs'', hmonoAll, _⟩ := ind_reachFrom_inv_mono hIs' hsteps
    have hmono := hmonoAll k.index
    constructor
    · cases hg : Indirection.getP s'' k with
      | none => exact absurd hg (ind_inv_getP_ne_none hIs'' k)
      | some r =>
        cases r with
        | none => rfl
        | some w =>
          exfalso
          have h5 : Indirection.slotGen s'' k.index = k.generation :=
            ind_getP_valid_slotGen hg
          omega
    · intro w k' t hins hidx
      have h5 := ind_insert_key_gen hins
      rw [hidx] at h5
      omega

/-- Witness for C4: removing key ⟨0,0⟩ and staying put (the empty tail
of further operations), the key answers nothing in both layouts, and
the direct-layout reuse insert hands out generation 1 ≠ 0. -/
theorem claim_C4_witness :
    Standard.get Standard.exU1 ⟨0, 0⟩ = none ∧
    (⟨0, 1⟩ : Key).generation ≠ (⟨0, 0⟩ : Key).generation ∧
    Indirection.getP Indirection.exS3 ⟨0, 0⟩ = some none :=
  ⟨(claim_C4_use_after_free.1 Nat Standard.exT1 ⟨0, 0⟩ 10 Standard.exU1
      Standard.exU1 reach_exT1 (by decide) Relation.ReflTransGen.refl).1,
   (claim_C4_use_after_free.1 Nat Standard.exT1 ⟨0, 0⟩ 10 Standard.exU1
      Standard.exU1 reach_exT1 (by decide) Relation.ReflTransGen.refl).2
     7 ⟨0, 1⟩ ⟨[.occupied 1 7], []⟩ (by decide) (by decide),
   (claim_C4_use_after_free.2 Nat Indirection.exS2 ⟨0, 0⟩ 10
      Indirection.exS3 Indirection.exS3 reach_exS2 (by decide)
      Relation.ReflTransGen.refl).1⟩

/-- C5: in every reachable state of either layout, `len()` equals the
number of keys for which `get` succeeds (exhibited by the duplicate-free
list `validKeys` of exactly those keys); for the direct layout `len` is
the slot count minus the free-list length, and `is_empty` holds exactly
when the count is zero. -/
theorem claim_C5_len_counts_valid_keys :
    (∀ (α : Type) (s : Standard.SlotMap α), Standard.Reach s →
       (Standard.validKeys s).Nodup ∧
       (∀ k, k ∈ Standard.validKeys s ↔
          (Standard.get s k).isSome = true) ∧
       (Standard.validKeys s).length = Standard.len s ∧
       Standard.len s = s.slots.length - s.free.length ∧
       (Standard.isEmpty s = true ↔
          (Standard.validKeys s).length = 0)) ∧
    (∀ (α : Type) (s : Indirection.SlotMap α), Indirection.Reach s →
       (Indirection.validKeys s).Nodup ∧
       (∀ k, k ∈ Indirection.validKeys s ↔
          ∃ v, Indirection.getP s k = some (some v)) ∧
       (Indirection.validKeys s).length = Indirection.len s ∧
       (Indirection.isEmpty s = true ↔
          (Indirection.validKeys s).length = 0)) := by
  constructor
  · intro α s hreach
    have hI := std_reach_inv hreach
    have hlen := std_validKeys_length hI
    refine ⟨std_validKeys_nodup s, fun k => std_validKeys_mem, hlen,
      rfl, ?_⟩
    rw [hlen]
    unfold Standard.isEmpty
    simp
  · intro α s hreach
    have hI := ind_reach_inv hreach
    have hlen := ind_validKeys_length s
    refine ⟨ind_validKeys_nodup hI, ind_validKeys_mem hI, hlen, ?_⟩
    rw [hlen]
    unfold Indirection.isEmpty Indirection.len
    simp

/-- Witness for C5 at concrete reachable states of both layouts. -/
theorem claim_C5_witness :
    (Standard.validKeys Standard.exT3).length = Standard.len Standard.exT3 ∧
    ((⟨1, 0⟩ : Key) ∈ Standard.validKeys Standard.exT3 ↔
       (Standard.get Standard.exT3 ⟨1, 0⟩).isSome = true) ∧
    (Indirection.validKeys Indirection.exS3).length =
      Indirection.len Indirection.exS3 :=
  ⟨(claim_C5_len_counts_valid_keys.1 Nat Standard.exT3 reach_exT3).2.2.1,
   (claim_C5_len_counts_valid_keys.1 Nat Standard.exT3 reach_exT3).2.1
     ⟨1, 0⟩,
   (claim_C5_len_counts_valid_keys.2 Nat Indirection.exS3
     reach_exS3).2.2.1⟩

/-- C6: removing with an invalid key is an atomic no-op in both layouts:
it returns nothing, does not panic, and leaves the state unchanged; and
after a successful removal a second removal of the same key returns
nothing and changes nothing (idempotent double-free). -/
theorem claim_C6_remove_invalid_noop :
    (∀ (α : Type) (s : Standard.SlotMap α) (k : Key),
       (Standard.get s k = none → Standard.remove s k = some (none, s)) ∧
       Standard.remove s k ≠ none) ∧
    (∀ (α : Type) (s : Standard.SlotMap α) (k : Key) (v : α)
       (s' : Standard.SlotMap α),
       Standard.remove s k = some (some v, s') →
       Standard.remove s' k = some (none, s')) ∧
    (∀ (α : Type) (s : Indirection.SlotMap α) (k : Key),
       Indirection.getP s k = some none →
       Indirection.remove s k = some (none, s)) ∧
    (∀ (α : Type) (s : Indirection.SlotMap α) (k : Key),
       Indirection.Reach s → Indirection.remove s k ≠ none) ∧
    (∀ (α : Type) (s : Indirection.SlotMap α) (k : Key) (v : α)
       (s' : Indirection.SlotMap α), Indirection.Reach s →
       Indirection.remove s k = some (some v, s') →
       Indirection.remove s' k = some (none, s')) := by
  refine ⟨?_, ?_, ?_, ?_, ?_⟩
  · intro α s k
    exact ⟨std_remove_of_get_none, std_remove_ne_none s k⟩
  · intro α s k v s' h
    rcases std_remove_eq_some h with ⟨_, hr, _⟩ | ⟨w, hg, _, rfl⟩
    · cases hr
    · refine std_remove_of_get_none ?_
      have hb : k.index < s.slots.length :=
        (List.getElem?_eq_some.mp (std_get_eq_some_iff.mp hg)).1
      exact std_get_none_of_vacant (s := ⟨_, _⟩)
        (List.getElem?_set_self hb)
  · intro α s k h
    exact ind_remove_of_getP_none h
  · intro α s k hreach
    exact ind_remove_isSome (ind_reach_inv hreach) k
  · intro α s k v s' hreach h
    exact ind_remove_of_getP_none
      (ind_remove_then_getP (ind_reach_inv hreach) h).1

/-- Witness for C6: an out-of-range key is a no-op in both layouts, and
double removal returns nothing the second time. -/
theorem claim_C6_witness :
    Standard.remove Standard.exT2 ⟨5, 0⟩ = some (none, Standard.exT2) ∧
    Standard.remove Standard.exU1 ⟨0, 0⟩ = some (none, Standard.exU1) ∧
    Indirection.remove Indirection.exS2 ⟨5, 0⟩ =
      some (none, Indirection.exS2) ∧
    Indirection.remove Indirection.exS3 ⟨0, 0⟩ =
      some (none, Indirection.exS3) :=
  ⟨(claim_C6_remove_invalid_noop.1 Nat Standard.exT2 ⟨5, 0⟩).1 (by decide),
   claim_C6_remove_invalid_noop.2.1 Nat Standard.exT1 ⟨0, 0⟩ 10
     Standard.exU1 (by decide),
   claim_C6_remove_invalid_noop.2.2.1 Nat Indirection.exS2 ⟨5, 0⟩
     (by decide),
   claim_C6_remove_invalid_noop.2.2.2.2 Nat Indirection.exS2 ⟨0, 0⟩ 10
     Indirection.exS3 reach_exS2 (by decide)⟩

/-- C8: the indexing operator panics exactly on invalid keys and
otherwise returns what `get` returns.  For the direct layout this holds
unconditionally; for the indirect layout on every reachable state (the
lookup inside `get` itself cannot panic there, so the unwrap is the only
panic site). -/
theorem claim_C8_index_panics_iff_invalid :
    (∀ (α : Type) (s : Standard.SlotMap α) (k : Key),
       (Standard.indexP s k = none ↔ Standard.get s k = none) ∧
       (∀ v, Standard.indexP s k = some v ↔ Standard.get s k = some v)) ∧
    (∀ (α : Type) (s : Indirection.SlotMap α) (k : Key),
       Indirection.Reach s →
       (Indirection.indexP s k = none ↔
          Indirection.getP s k = some none) ∧
       (∀ v, Indirection.indexP s k = some v ↔
          Indirection.getP s k = some (some v))) := by
  constructor
  · intro α s k
    cases hg : Standard.get s k with
    | none => simp [Standard.indexP, hg]
    | some w => simp [Standard.indexP, hg]
  · intro α s k hreach
    have hI := ind_reach_inv hreach
    cases hg : Indirection.getP s k with
    | none => exact absurd hg (ind_inv_getP_ne_none hI k)
    | some r =>
      cases r with
      | none => simp [Indirection.indexP, hg]
      | some w => simp [Indirection.indexP, hg]

/-- Witness for C8 at concrete states of both layouts. -/
theorem claim_C8_witness :
    Standard.indexP Standard.exT2 ⟨0, 0⟩ = some 10 ∧
    Standard.indexP Standard.exT2 ⟨5, 5⟩ = none ∧
    Indirection.indexP Indirection.exS3 ⟨1, 0⟩ = some 20 ∧
    Indirection.indexP Indirection.exS3 ⟨0, 0⟩ = none :=
  ⟨((claim_C8_index_panics_iff_invalid.1 Nat Standard.exT2 ⟨0, 0⟩).2
      10).mpr (by decide),
   (claim_C8_index_panics_iff_invalid.1 Nat Standard.exT2
      ⟨5, 5⟩).1.mpr (by decide),
   ((claim_C8_index_panics_iff_invalid.2 Nat Indirection.exS3 ⟨1, 0⟩
      reach_exS3).2 20).mpr (by decide),
   (claim_C8_index_panics_iff_invalid.2 Nat Indirection.exS3 ⟨0, 0⟩
      reach_exS3).1.mpr (by decide)⟩

/-- C9: direct-layout iteration yields exactly one (key, value) pair per
occupied slot — membership holds precisely for the occupied slots with
their stored position and generation — in strictly increasing position
order, skipping vacant slots, and backward iteration is the exact
reverse. -/
theorem claim_C9_direct_iteration :
    ∀ (α : Type) (s : Standard.SlotMap α),
      (∀ (k : Key) (v : α), (k, v) ∈ Standard.iterList s ↔
         s.slots[k.index]? = some (.occupied k.generation v)) ∧
      (Standard.iterList s).Pairwise (fun a b => a.1.index < b.1.index) ∧
      Standard.iterBackList s = (Standard.iterList s).reverse := by
  intro α s
  exact ⟨fun k v => std_iterList_mem, std_iterList_pairwise s,
    std_iterBack_eq_reverse s⟩

/-- C10: insert preserves existing entries.  In both layouts, on every
reachable state, a completed insert returns a key that was invalid
before the call, grows `len` by exactly one, and leaves the lookup of
every other key unchanged. -/
theorem claim_C10_insert_frame :
    (∀ (α : Type) (s : Standard.SlotMap α) (v : α) (k' : Key)
       (s' : Standard.SlotMap α), Standard.Reach s →
       Standard.insert s v = some (k', s') →
       Standard.get s k' = none ∧
       Standard.len s' = Standard.len s + 1 ∧
       ∀ k, k ≠ k' → Standard.get s' k = Standard.get s k) ∧
    (∀ (α : Type) (s : Indirection.SlotMap α) (v : α) (k' : Key)
       (s' : Indirection.SlotMap α), Indirection.Reach s →
       Indirection.insert s v = some (k', s') →
       Indirection.getP s k' = some none ∧
       Indirection.len s' = Indirection.len s + 1 ∧
       ∀ k, k ≠ k' → Indirection.getP s' k = Indirection.getP s k) := by
  constructor
  · intro α s v k' s' hreach h
    exact ⟨std_insert_get_before h,
      std_insert_len (std_reach_inv hreach) h, std_insert_frame h⟩
  · intro α s v k' s' hreach h
    exact ⟨ind_insert_getP_before h, ind_insert_len h,
      ind_insert_frame (ind_reach_inv hreach) h⟩

/-- Witness for C10: inserting into concrete reachable states of both
layouts. -/
theorem claim_C10_witness :
    Standard.get Standard.exT1 ⟨1, 0⟩ = none ∧
    Standard.len Standard.exT2 = Standard.len Standard.exT1 + 1 ∧
    Standard.get Standard.exT2 ⟨0, 0⟩ = Standard.get Standard.exT1 ⟨0, 0⟩ ∧
    Indirection.getP Indirection.exS4 ⟨0, 1⟩ = some none ∧
    Indirection.len Indirection.exS5 =
      Indirection.len Indirection.exS4 + 1 ∧
    Indirection.getP Indirection.exS5 ⟨1, 1⟩ =
      Indirection.getP Indirection.exS4 ⟨1, 1⟩ :=
  ⟨(claim_C10_insert_frame.1 Nat Standard.exT1 20 ⟨1, 0⟩ Standard.exT2
      reach_exT1 (by decide)).1,
   (claim_C10_insert_frame.1 Nat Standard.exT1 20 ⟨1, 0⟩ Standard.exT2
      reach_exT1 (by decide)).2.1,
   (claim_C10_insert_frame.1 Nat Standard.exT1 20 ⟨1, 0⟩ Standard.exT2
      reach_exT1 (by decide)).2.2 ⟨0, 0⟩ (by decide),
   (claim_C10_insert_frame.2 Nat Indirection.exS4 30 ⟨0, 1⟩
      Indirection.exS5 reach_exS4 (by decide)).1,
   (claim_C10_insert_frame.2 Nat Indirection.exS4 30 ⟨0, 1⟩
      Indirection.exS5 reach_exS4 (by decide)).2.1,
   (claim_C10_insert_frame.2 Nat Indirection.exS4 30 ⟨0, 1⟩
      Indirection.exS5 reach_exS4 (by decide)).2.2 ⟨1, 1⟩ (by decide)⟩

end Slotmap
